import Mathlib

/-!
Verification of the hdrhistogram Go package (single source file hdr.go).

The Go code is shallowly embedded: 64-bit signed integers are modelled as
unbounded Int, slices are Lists, fallible calls return Option, and the
stateful iterators are step functions on explicit state records driven by
fuelled loops (the fuel is provably sufficient on well-formed histograms;
the Go loops are unbounded).  The constructor's floating-point logarithms
are modelled as exact integer logarithms and its mask shift as an exact
product; the comments on those definitions record where Go's float64
arithmetic and int64 wrap-around genuinely diverge from the exact model
(large lowestTrackableValue makes the stored subBucketMask wrap negative,
and the float64 expressions misfloor near large powers of two), and the
theorems below are confined to the well-formed geometries on which model
and program agree.  The functions whose observable behaviour hinges on
float64 rounding itself (ValueAtQuantile's target count and the percentile
iterator behind CumulativeDistribution) are not modelled here, because an
exact-rational rendering of them provably disagrees with the program on
reachable histograms.
-/

namespace Hdr

/-- Fuelled binary bit-length: bitLenAux fuel n is the number of binary digits
of n provided n does not exceed the fuel.  Used to model the Go helper bitLen
(hdr.go, bottom), whose unrolled shift loop computes exactly the bit length
of a non-negative int64. -/
def bitLenAux : Nat → Nat → Nat
  | 0, _ => 0
  | fuel + 1, n => if n = 0 then 0 else bitLenAux fuel (n / 2) + 1

/-- Models func bitLen(x int64) int64 from hdr.go: the position of the highest
set bit (0 for 0).  For negative x every guard in the Go loop fails and the
function returns 0. -/
def bitLen (x : Int) : Int := if x < 0 then 0 else (bitLenAux x.toNat x.toNat : Int)

/-- Models func power(base, exp int64) int64 from hdr.go (simple product loop,
no overflow in the verified range: base = 10, exp at most 5). -/
def power (base exp : Int) : Int := base ^ exp.toNat

/-- Go arithmetic right shift x >> uint(s) on int64: for s below 0 the uint
conversion makes the shift amount at least 64, which sign-fills.  Floor
division by a power of two is exactly the arithmetic shift. -/
def goShiftRight (x s : Int) : Int :=
  if 0 ≤ s then Int.fdiv x (2 ^ s.toNat) else if 0 ≤ x then 0 else -1

/-- Go left shift x << uint(s) on int64: for s below 0 the uint conversion
makes the shift amount at least 64 and the result is 0.  The multiplication
here is exact and does not model the int64 wrap: Go reduces the product mod
2^64 into the signed range, and New's subBucketMask shift does reach that
wrap (once unitMagnitude + subBucketCountMagnitude is at least 64, for
example minValue 2^46 with sigfigs 5 or minValue 2^59 with sigfigs 1, the
program stores a negative mask and every recording then fails).  The
theorems below therefore evaluate this function only on well-formed
geometries, whose shifts stay strictly below the wrap. -/
def goShiftLeft (x s : Int) : Int :=
  if 0 ≤ s then x * 2 ^ s.toNat else 0

/-- The Histogram record from hdr.go.  The counts slice is a List of the
per-slot counters; all int64/int32 fields are modelled as Int. -/
structure Histogram where
  lowestTrackableValue : Int
  highestTrackableValue : Int
  unitMagnitude : Int
  significantFigures : Int
  subBucketHalfCountMagnitude : Int
  subBucketHalfCount : Int
  subBucketMask : Int
  subBucketCount : Int
  bucketCount : Int
  countsLen : Int
  totalCount : Int
  counts : List Int
deriving Repr, DecidableEq

namespace Histogram

/-- Models getBucketIndex (hdr.go): bitLen(v | subBucketMask) minus
unitMagnitude minus (subBucketHalfCountMagnitude + 1). -/
def getBucketIndex (h : Histogram) (v : Int) : Int :=
  bitLen (Int.lor v h.subBucketMask) - h.unitMagnitude - (h.subBucketHalfCountMagnitude + 1)

/-- Models getSubBucketIdx (hdr.go): v >> uint(idx + unitMagnitude).  The
int32 truncation of the result is omitted: in every reachable call the result
is below subBucketCount (or equals -1), far inside int32 range. -/
def getSubBucketIdx (h : Histogram) (v idx : Int) : Int :=
  goShiftRight v (idx + h.unitMagnitude)

/-- Models countsIndex (hdr.go): ((bucketIdx+1) << subBucketHalfCountMagnitude)
+ (subBucketIdx - subBucketHalfCount).  The shift amount field is nonnegative
on every constructed histogram. -/
def countsIndex (h : Histogram) (bucketIdx subBucketIdx : Int) : Int :=
  (bucketIdx + 1) * 2 ^ h.subBucketHalfCountMagnitude.toNat + (subBucketIdx - h.subBucketHalfCount)

/-- Models countsIndexFor (hdr.go). -/
def countsIndexFor (h : Histogram) (v : Int) : Int :=
  let bucketIdx := h.getBucketIndex v
  let subBucketIdx := h.getSubBucketIdx v bucketIdx
  h.countsIndex bucketIdx subBucketIdx

/-- Models valueFromIndex (hdr.go): int64(subBucketIdx) << uint(bucketIdx +
unitMagnitude). -/
def valueFromIndex (h : Histogram) (bucketIdx subBucketIdx : Int) : Int :=
  goShiftLeft subBucketIdx (bucketIdx + h.unitMagnitude)

/-- Models sizeOfEquivalentValueRange (hdr.go). -/
def sizeOfEquivalentValueRange (h : Histogram) (v : Int) : Int :=
  let bucketIdx := h.getBucketIndex v
  let subBucketIdx := h.getSubBucketIdx v bucketIdx
  let adjustedBucket := if h.subBucketCount ≤ subBucketIdx then bucketIdx + 1 else bucketIdx
  goShiftLeft 1 (h.unitMagnitude + adjustedBucket)

/-- Models lowestEquivalentValue (hdr.go). -/
def lowestEquivalentValue (h : Histogram) (v : Int) : Int :=
  let bucketIdx := h.getBucketIndex v
  let subBucketIdx := h.getSubBucketIdx v bucketIdx
  h.valueFromIndex bucketIdx subBucketIdx

/-- Models nextNonEquivalentValue (hdr.go). -/
def nextNonEquivalentValue (h : Histogram) (v : Int) : Int :=
  h.lowestEquivalentValue v + h.sizeOfEquivalentValueRange v

/-- Models highestEquivalentValue (hdr.go). -/
def highestEquivalentValue (h : Histogram) (v : Int) : Int :=
  h.nextNonEquivalentValue v - 1

/-- Models medianEquivalentValue (hdr.go): lowest + (size >> 1). -/
def medianEquivalentValue (h : Histogram) (v : Int) : Int :=
  h.lowestEquivalentValue v + goShiftRight (h.sizeOfEquivalentValueRange v) 1

/-- Models getCountAtIndex (hdr.go): h.counts[h.countsIndex(b, s)].  The Go
slice access panics out of range; the model reads 0 there.  Every access in a
verified traversal is proved in range. -/
def getCountAtIndex (h : Histogram) (bucketIdx subBucketIdx : Int) : Int :=
  h.counts.getD (h.countsIndex bucketIdx subBucketIdx).toNat 0

/-- Models RecordValues (hdr.go): computes the counts index for v, fails when
it falls outside the counts slice, otherwise bumps the slot by n and the
total by n. -/
def RecordValues (h : Histogram) (v n : Int) : Option Histogram :=
  let idx := h.countsIndexFor v
  if idx < 0 ∨ h.countsLen ≤ idx then none
  else some { h with
    counts := h.counts.set idx.toNat (h.counts.getD idx.toNat 0 + n)
    totalCount := h.totalCount + n }

/-- Models RecordValue (hdr.go): RecordValues with count 1. -/
def RecordValue (h : Histogram) (v : Int) : Option Histogram :=
  h.RecordValues v 1

/-- Models Reset (hdr.go): totalCount goes to 0 and every slot of counts is
written to 0 in place (geometry untouched). -/
def Reset (h : Histogram) : Histogram :=
  { h with totalCount := 0, counts := h.counts.map fun _ => 0 }

end Histogram

/-- Fuelled form of the bucket-count loop of New (hdr.go): starting from
trackableValue = subBucketCount-1 and bucketsNeeded = 1, double trackableValue
until it reaches maxValue.  The fuel passed by New is provably sufficient, so
the exhaustion branch mirrors nothing reachable. -/
def bucketsNeededLoop : Nat → Int → Int → Int → Int
  | 0, _, _, bucketsNeeded => bucketsNeeded
  | fuel + 1, trackableValue, maxValue, bucketsNeeded =>
    if trackableValue < maxValue then
      bucketsNeededLoop fuel (trackableValue * 2) maxValue (bucketsNeeded + 1)
    else bucketsNeeded

/-- Models the float32 expression int32(math.Ceil(a / b)) of New (hdr.go),
where a and b are the float32 natural logs of v and 2: the exact ceiling of
log2 v, which is bitLen (v - 1) for v at least 1.  For the five inputs that
arise (v = 2 * 10^sigfigs, sigfigs in [1,5]) the float32 evaluation and the
exact ceiling agree, since log2 v is then never within float32 rounding
distance of an integer. -/
def ceilLog2 (v : Int) : Int := bitLen (v - 1)

/-- Models the expression int32(math.Floor(math.Log(v) / math.Log(2))) of New
(hdr.go) together with the clamp at 0 that follows it, as the exact floor of
log2 v for v at least 1, which is bitLen v - 1.  The float64 evaluation is
not exact: for v in narrow windows just below 2^k with k at least 48 (for
example thousands of values below 2^60) Go's expression returns k rather
than k - 1, so the exact model is only faithful for v below 2^47.  The
exact value is also what the well-formedness development relies on. -/
def floorLog2Clamped (v : Int) : Int := max (bitLen v - 1) 0

/-- Models New (hdr.go).  The sigfigs range check panics in Go; the model is
total and every theorem about New carries the [1,5] bound as a hypothesis.
The subBucketMask field is the exact product (subBucketCount - 1) *
2^unitMagnitude, without the int64 wrap of Go's left shift: once
unitMagnitude + subBucketCountMagnitude reaches 64 (minValue at 2^46 with
sigfigs 5, at 2^59 with sigfigs 1) Go wraps the shift mod 2^64 and stores a
negative mask, after which bitLen of v | mask is 0 and every recording
fails with the out-of-range error; the exact model is faithful only below
that range, and likewise unitMagnitude inherits the floorLog2Clamped caveat
for minValue at 2^47 and above. -/
def New (minValue maxValue : Int) (sigfigs : Int) : Histogram :=
  let largestValueWithSingleUnitResolution := 2 * power 10 sigfigs
  let subBucketCountMagnitude := ceilLog2 largestValueWithSingleUnitResolution
  let subBucketHalfCountMagnitude :=
    (if subBucketCountMagnitude < 1 then 1 else subBucketCountMagnitude) - 1
  let unitMagnitude := floorLog2Clamped minValue
  let subBucketCount := 2 ^ (subBucketHalfCountMagnitude + 1).toNat
  let subBucketHalfCount := subBucketCount / 2
  let subBucketMask := (subBucketCount - 1) * 2 ^ unitMagnitude.toNat
  let bucketCount :=
    bucketsNeededLoop (maxValue.toNat + 1) (subBucketCount - 1) maxValue 1
  let countsLen := (bucketCount + 1) * (subBucketCount / 2)
  { lowestTrackableValue := minValue
    highestTrackableValue := maxValue
    unitMagnitude := unitMagnitude
    significantFigures := sigfigs
    subBucketHalfCountMagnitude := subBucketHalfCountMagnitude
    subBucketHalfCount := subBucketHalfCount
    subBucketMask := subBucketMask
    subBucketCount := subBucketCount
    bucketCount := bucketCount
    countsLen := countsLen
    totalCount := 0
    counts := List.replicate countsLen.toNat 0 }

/-- State of the base iterator (hdr.go struct iterator), minus the back
pointer to the histogram, which the Lean step function takes as an argument. -/
structure HIterator where
  bucketIdx : Int
  subBucketIdx : Int
  countAtIdx : Int
  countToIdx : Int
  valueFromIdx : Int
  highestEquivalentValue : Int
deriving Repr, DecidableEq

namespace Histogram

/-- Models h.iterator() (hdr.go): subBucketIdx starts at -1, everything else
at its zero value. -/
def iterator (_h : Histogram) : HIterator :=
  { bucketIdx := 0, subBucketIdx := -1, countAtIdx := 0, countToIdx := 0,
    valueFromIdx := 0, highestEquivalentValue := 0 }

/-- Models (*iterator).next (hdr.go): returns the mutated iterator state
together with the Go boolean result.  The state mutations that Go performs
before an early false return are preserved, because callers embedding this
iterator read them. -/
def iterNext (h : Histogram) (i : HIterator) : HIterator × Bool :=
  if h.totalCount ≤ i.countToIdx then (i, false)
  else
    let s := i.subBucketIdx + 1
    let i := if h.subBucketCount ≤ s then
               { i with subBucketIdx := h.subBucketHalfCount, bucketIdx := i.bucketIdx + 1 }
             else { i with subBucketIdx := s }
    if h.bucketCount ≤ i.bucketIdx then (i, false)
    else
      let c := h.getCountAtIndex i.bucketIdx i.subBucketIdx
      let v := h.valueFromIndex i.bucketIdx i.subBucketIdx
      ({ i with countAtIdx := c, countToIdx := i.countToIdx + c,
                valueFromIdx := v, highestEquivalentValue := h.highestEquivalentValue v },
       true)

/-- Fuel that strictly exceeds the number of successful iterNext steps any
traversal can take: one per counts slot plus slack. -/
def iterFuel (h : Histogram) : Nat := h.countsLen.toNat + 2

end Histogram

/-- State of the recorded-values iterator (hdr.go struct rIterator). -/
structure RIterator where
  it : HIterator
  countAddedThisStep : Int
deriving Repr, DecidableEq

namespace Histogram

/-- Models h.rIterator() (hdr.go). -/
def rIterator (h : Histogram) : RIterator :=
  { it := h.iterator, countAddedThisStep := 0 }

/-- Models (*rIterator).next (hdr.go): repeatedly advance the base iterator
until a slot with a nonzero count appears, or the base iterator is done. -/
def rNext (h : Histogram) : Nat → RIterator → RIterator × Bool
  | 0, r => (r, false)
  | fuel + 1, r =>
    match h.iterNext r.it with
    | (i, false) => ({ r with it := i }, false)
    | (i, true) =>
      if i.countAtIdx ≠ 0 then ({ it := i, countAddedThisStep := i.countAtIdx }, true)
      else h.rNext fuel { r with it := i }

end Histogram

namespace Histogram

/-- Loop of Max (hdr.go): remember the highest equivalent value of every
nonzero slot seen; the last one wins. -/
def maxLoop (h : Histogram) : Nat → HIterator → Int → Int
  | 0, _, m => m
  | fuel + 1, i, m =>
    match h.iterNext i with
    | (_, false) => m
    | (i', true) => h.maxLoop fuel i' (if i'.countAtIdx ≠ 0 then i'.highestEquivalentValue else m)

/-- Models Max (hdr.go). -/
def Max (h : Histogram) : Int :=
  h.lowestEquivalentValue (h.maxLoop h.iterFuel h.iterator 0)

/-- Loop of Min (hdr.go): the first nonzero slot (while min is still 0) sets
min to the slot's highest equivalent value and breaks. -/
def minLoop (h : Histogram) : Nat → HIterator → Int → Int
  | 0, _, m => m
  | fuel + 1, i, m =>
    match h.iterNext i with
    | (_, false) => m
    | (i', true) =>
      if i'.countAtIdx ≠ 0 ∧ m = 0 then i'.highestEquivalentValue
      else h.minLoop fuel i' m

/-- Models Min (hdr.go). -/
def Min (h : Histogram) : Int :=
  h.lowestEquivalentValue (h.minLoop h.iterFuel h.iterator 0)

/-- Loop of RecordCorrectedValue (hdr.go): record one occurrence of each
missing value, stepping down by expectedInterval while at least
expectedInterval remains; the first failure is returned with the partial
recordings kept (Go mutates in place and returns the error). -/
def recordCorrectedLoop (h : Histogram) : Nat → Int → Int → Histogram × Bool
  | 0, _, _ => (h, true)
  | fuel + 1, missingValue, expectedInterval =>
    if expectedInterval ≤ missingValue then
      match h.RecordValue missingValue with
      | none => (h, false)
      | some h1 => h1.recordCorrectedLoop fuel (missingValue - expectedInterval) expectedInterval
    else (h, true)

/-- Models RecordCorrectedValue (hdr.go): record v (propagating a failure
unchanged), then, unless expectedInterval is nonpositive or v does not exceed
it, backfill v - expectedInterval, v - 2*expectedInterval, ... while at least
expectedInterval remains.  The Bool is true exactly when Go returns nil; the
Histogram component is the state Go leaves behind either way. -/
def RecordCorrectedValue (h : Histogram) (v expectedInterval : Int) : Histogram × Bool :=
  match h.RecordValue v with
  | none => (h, false)
  | some h1 =>
    if expectedInterval ≤ 0 ∨ v ≤ expectedInterval then (h1, true)
    else h1.recordCorrectedLoop (v.toNat + 1) (v - expectedInterval) expectedInterval

end Histogram

/-- Loop of Merge (hdr.go): drain the from histogram through its
recorded-values iterator and replay each (value, count) pair into the
receiver, accumulating the counts of failed recordings as dropped.  The from
histogram is threaded through untouched, making the frame property of Merge
(it only reads from) a statement of the model rather than a convention. -/
def mergeLoop : Nat → Hdr.Histogram → Hdr.Histogram → Hdr.RIterator → Int →
    Hdr.Histogram × Hdr.Histogram × Int
  | 0, a, f, _, dropped => (a, f, dropped)
  | fuel + 1, a, f, r, dropped =>
    match f.rNext f.iterFuel r with
    | (_, false) => (a, f, dropped)
    | (r', true) =>
      match a.RecordValues r'.it.valueFromIdx r'.it.countAtIdx with
      | none => mergeLoop fuel a f r' (dropped + r'.it.countAtIdx)
      | some a' => mergeLoop fuel a' f r' dropped

namespace Histogram

/-- Models (*Histogram).Merge (hdr.go).  The result is the receiver after the
merge, the from histogram as the loop leaves it, and the dropped count that
Go returns. -/
def Merge (h fromH : Histogram) : Histogram × Histogram × Int :=
  mergeLoop fromH.iterFuel h fromH fromH.rIterator 0

end Histogram

/-! ## Proof-layer definitions -/

/-- Bit length of a natural number, computed with sufficient fuel. -/
def bitLenNat (n : Nat) : Nat := bitLenAux n n

/-- Nat form of the sub-bucket half-count magnitude. -/
def Histogram.mNat (h : Histogram) : Nat := h.subBucketHalfCountMagnitude.toNat

/-- Nat form of the unit magnitude. -/
def Histogram.uNat (h : Histogram) : Nat := h.unitMagnitude.toNat

/-- Sum of the first k counters; the running countToIdx of the base iterator
after k successful steps. -/
def sumTo (l : List Int) (k : Nat) : Int := (l.take k).sum

/-- Name for the let-bound subBucketHalfCountMagnitude computed by New. -/
def newMag (s : Int) : Int :=
  (if ceilLog2 (2 * power 10 s) < 1 then 1 else ceilLog2 (2 * power 10 s)) - 1

/-- Name for the let-bound unitMagnitude computed by New. -/
def newU (lo : Int) : Int := floorLog2Clamped lo

/-- Name for the let-bound subBucketCount computed by New. -/
def newSbc (s : Int) : Int := 2 ^ (newMag s + 1).toNat

/-- Name for the let-bound bucketCount computed by New. -/
def newBc (hi s : Int) : Int := bucketsNeededLoop (hi.toNat + 1) (newSbc s - 1) hi 1

/-- The geometry and counts invariants every histogram reachable through the
public API satisfies: the derived fields carry the powers of two New computes,
the counts slice has length countsLen with nonnegative entries summing to
totalCount, and the bucket count covers the declared highest trackable
value. -/
structure WF (h : Histogram) : Prop where
  hu : h.unitMagnitude = (h.uNat : Int)
  hm : h.subBucketHalfCountMagnitude = (h.mNat : Int)
  hsbc : h.subBucketCount = (2 : Int) ^ (h.mNat + 1)
  hhalf : h.subBucketHalfCount = (2 : Int) ^ h.mNat
  hmask : h.subBucketMask = ((2 : Int) ^ (h.mNat + 1) - 1) * (2 : Int) ^ h.uNat
  hbc : 1 ≤ h.bucketCount
  hlen : h.countsLen = (h.bucketCount + 1) * (2 : Int) ^ h.mNat
  hcounts : h.counts.length = h.countsLen.toNat
  hnonneg : ∀ c ∈ h.counts, 0 ≤ c
  htotal : h.totalCount = h.counts.sum
  htrack : h.highestTrackableValue ≤
    ((2 : Int) ^ (h.mNat + 1) - 1) * (2 : Int) ^ (h.bucketCount - 1).toNat
  hlow : 1 ≤ h.lowestTrackableValue
  hlowu : h.lowestTrackableValue < (2 : Int) ^ (h.uNat + 1)

/-- Histograms built by New (with a positive lowest trackable value) followed
by any sequence of successful recordings of nonnegative multiplicities. -/
inductive Reachable : Histogram → Prop where
  | new (lo hi s : Int) (hlo : 1 ≤ lo) : Reachable (New lo hi s)
  | record {h h' : Histogram} (hr : Reachable h) {v n : Int} (hn : 0 ≤ n)
      (hrec : h.RecordValues v n = some h') : Reachable h'

/-- The address-order successor on (bucketIdx, subBucketIdx) pairs, in Nat
form: it agrees with the increment step of iterNext on every well-formed
histogram, whose subBucketCount is 2 ^ (mNat + 1) and whose
subBucketHalfCount is 2 ^ mNat. -/
def slotSucc (h : Histogram) (bs : Nat × Nat) : Nat × Nat :=
  if 2 ^ (h.mNat + 1) ≤ bs.2 + 1 then (bs.1 + 1, 2 ^ h.mNat) else (bs.1, bs.2 + 1)

/-- The (bucketIdx, subBucketIdx) pair the base iterator occupies after k+1
successful steps: slot 0 is (0, 0) and successive slots follow slotSucc. -/
def slotAt (h : Histogram) : Nat → Nat × Nat
  | 0 => (0, 0)
  | k + 1 => slotSucc h (slotAt h k)

/-- The representative value of slot k. -/
def valueAt (h : Histogram) (k : Nat) : Int :=
  h.valueFromIndex ((slotAt h k).1 : Int) ((slotAt h k).2 : Int)

/-- The full iterator state after k successful iterNext steps from the
initial state (k = 0 is the initial state itself). -/
def posState (h : Histogram) : Nat → HIterator
  | 0 => h.iterator
  | k + 1 =>
    { bucketIdx := ((slotAt h k).1 : Int)
      subBucketIdx := ((slotAt h k).2 : Int)
      countAtIdx := h.counts.getD k 0
      countToIdx := sumTo h.counts (k + 1)
      valueFromIdx := valueAt h k
      highestEquivalentValue := h.highestEquivalentValue (valueAt h k) }

/-- The list of synthetic values RecordCorrectedValue backfills (spec section
4.2): v - expectedInterval, v - 2*expectedInterval, ... down to but not below
expectedInterval; the argument is the first candidate missing value. -/
def syntheticValues : Nat → Int → Int → List Int
  | 0, _, _ => []
  | fuel + 1, missingValue, expectedInterval =>
    if expectedInterval ≤ missingValue then
      missingValue :: syntheticValues fuel (missingValue - expectedInterval) expectedInterval
    else []

/-- Record each value of the list once, in order, stopping at and reporting
the first failure while keeping the successful recordings before it. -/
def recordSeq : Histogram → List Int → Histogram × Bool
  | h, [] => (h, true)
  | h, v :: rest =>
    match h.RecordValue v with
    | none => (h, false)
    | some h1 => recordSeq h1 rest

/-! ## List helpers -/

theorem sumTo_zero (l : List Int) : sumTo l 0 = 0 := rfl

theorem sumTo_succ (l : List Int) (k : Nat) :
    sumTo l (k + 1) = sumTo l k + l.getD k 0 := by
  rcases lt_or_ge k l.length with hk | hk
  · rw [sumTo, sumTo, List.take_succ, List.sum_append, List.getD_eq_getElem l 0 hk,
      List.getElem?_eq_getElem hk]
    simp
  · rw [sumTo, sumTo, List.take_of_length_le hk, List.take_of_length_le (le_trans hk (by omega)),
      List.getD_eq_default l 0 hk]
    simp

theorem sumTo_length (l : List Int) : sumTo l l.length = l.sum := by
  rw [sumTo, List.take_length]

theorem sumTo_mono (l : List Int) (hpos : ∀ c ∈ l, 0 ≤ c) {j k : Nat} (hjk : j ≤ k) :
    sumTo l j ≤ sumTo l k := by
  induction k with
  | zero =>
    have : j = 0 := by omega
    subst this; exact le_refl _
  | succ k ih =>
    rcases Nat.lt_or_ge j (k + 1) with hj | hj
    · have h1 : sumTo l j ≤ sumTo l k := ih (by omega)
      have h2 : 0 ≤ l.getD k 0 := by
        rcases lt_or_ge k l.length with hk | hk
        · rw [List.getD_eq_getElem l 0 hk]
          exact hpos _ (List.getElem_mem hk)
        · rw [List.getD_eq_default l 0 hk]
      rw [sumTo_succ]; omega
    · have : j = k + 1 := by omega
      subst this; exact le_refl _

theorem sumTo_le_sum (l : List Int) (hpos : ∀ c ∈ l, 0 ≤ c) (k : Nat) :
    sumTo l k ≤ l.sum := by
  rcases le_or_lt k l.length with hk | hk
  · calc sumTo l k ≤ sumTo l l.length := sumTo_mono l hpos hk
    _ = l.sum := sumTo_length l
  · rw [sumTo, List.take_of_length_le (by omega)]

theorem sum_set_int (l : List Int) (i : Nat) (a : Int) (hi : i < l.length) :
    (l.set i a).sum = l.sum + a - l.getD i 0 := by
  induction l generalizing i with
  | nil => simp at hi
  | cons x xs ih =>
    cases i with
    | zero => simp [List.set]; ring
    | succ j =>
      simp only [List.set, List.sum_cons, List.getD_cons_succ]
      rw [ih j (by simpa using hi)]
      ring

theorem getD_set_self (l : List Int) (i : Nat) (a : Int) (hi : i < l.length) :
    (l.set i a).getD i 0 = a := by
  have hi' : i < (l.set i a).length := by simpa using hi
  rw [List.getD_eq_getElem _ 0 hi', List.getElem_set_self]

theorem getD_set_ne (l : List Int) (i j : Nat) (a : Int) (hij : i ≠ j) :
    (l.set i a).getD j 0 = l.getD j 0 := by
  rcases lt_or_ge j l.length with hj | hj
  · have hj' : j < (l.set i a).length := by simpa using hj
    rw [List.getD_eq_getElem _ 0 hj', List.getD_eq_getElem l 0 hj, List.getElem_set_ne hij]
  · rw [List.getD_eq_default l 0 hj, List.getD_eq_default _ 0 (by simpa using hj)]

/-! ## Bit length -/

theorem bitLenAux_le_iff : ∀ fuel n, n ≤ fuel → ∀ k, (bitLenAux fuel n ≤ k ↔ n < 2 ^ k) := by
  intro fuel
  induction fuel with
  | zero =>
    intro n hn k
    have : n = 0 := by omega
    subst this
    rw [show bitLenAux 0 0 = 0 from rfl]
    constructor
    · intro _; exact Nat.two_pow_pos k
    · intro _; exact Nat.zero_le k
  | succ fuel ih =>
    intro n hn k
    by_cases h0 : n = 0
    · subst h0
      rw [show bitLenAux (fuel + 1) 0 = 0 by simp [bitLenAux]]
      constructor
      · intro _; exact Nat.two_pow_pos k
      · intro _; exact Nat.zero_le k
    · rw [bitLenAux, if_neg h0]
      have hdiv : n / 2 ≤ fuel := by
        have hlt : n / 2 < n := Nat.div_lt_self (by omega) (by omega)
        omega
      cases k with
      | zero =>
        simp only [Nat.pow_zero]
        constructor
        · omega
        · intro h; omega
      | succ k =>
        rw [Nat.succ_le_succ_iff, ih (n / 2) hdiv k, Nat.pow_succ]
        rw [Nat.div_lt_iff_lt_mul (by omega)]

theorem bitLenNat_le_iff (n k : Nat) : bitLenNat n ≤ k ↔ n < 2 ^ k :=
  bitLenAux_le_iff n n (le_refl n) k

theorem lt_two_pow_bitLenNat (n : Nat) : n < 2 ^ bitLenNat n :=
  (bitLenNat_le_iff n (bitLenNat n)).1 (le_refl _)

theorem bitLenNat_pos (n : Nat) (hn : 1 ≤ n) : 1 ≤ bitLenNat n := by
  by_contra h
  push_neg at h
  have := (bitLenNat_le_iff n 0).1 (by omega)
  simp at this
  omega

theorem two_pow_le_of_bitLenNat (n : Nat) (hn : 1 ≤ n) : 2 ^ (bitLenNat n - 1) ≤ n := by
  by_contra h
  push_neg at h
  have h2 := (bitLenNat_le_iff n (bitLenNat n - 1)).2 h
  have h3 := bitLenNat_pos n hn
  omega

theorem bitLenNat_lor (a b : Nat) : bitLenNat (a ||| b) = max (bitLenNat a) (bitLenNat b) := by
  have hle : ∀ x y : Nat, x ≤ x ||| y := by
    intro x y
    apply Nat.le_of_testBit
    intro i hi
    rw [Nat.testBit_or, hi, Bool.true_or]
  apply le_antisymm
  · rw [bitLenNat_le_iff]
    exact Nat.bitwise_lt_two_pow
      (lt_of_lt_of_le (lt_two_pow_bitLenNat a) (Nat.pow_le_pow_right (by omega) (le_max_left _ _)))
      (lt_of_lt_of_le (lt_two_pow_bitLenNat b) (Nat.pow_le_pow_right (by omega) (le_max_right _ _)))
  · apply max_le
    · rw [bitLenNat_le_iff]
      exact lt_of_le_of_lt (hle a b) (lt_two_pow_bitLenNat (a ||| b))
    · rw [bitLenNat_le_iff]
      exact lt_of_le_of_lt (by rw [Nat.lor_comm]; exact hle b a) (lt_two_pow_bitLenNat (a ||| b))

theorem bitLenNat_eq_of_bounds {n k : Nat} (h1 : 2 ^ k ≤ n) (h2 : n < 2 ^ (k + 1)) :
    bitLenNat n = k + 1 := by
  have ha : bitLenNat n ≤ k + 1 := (bitLenNat_le_iff n (k + 1)).2 h2
  have hb : ¬ bitLenNat n ≤ k := fun hc => by
    have := (bitLenNat_le_iff n k).1 hc
    omega
  omega

/-! ## Int bridges -/

theorem int_lor_ofNat (m n : Nat) : Int.lor (m : Int) (n : Int) = ((m ||| n : Nat) : Int) := rfl

theorem int_fdiv_ofNat (m n : Nat) : Int.fdiv (m : Int) (n : Int) = ((m / n : Nat) : Int) :=
  (Int.ofNat_fdiv m n).symm

theorem bitLen_ofNat (n : Nat) : bitLen (n : Int) = (bitLenNat n : Int) := by
  rw [bitLen, if_neg (by omega), Int.toNat_natCast]
  rfl

theorem goShiftRight_ofNat (n : Nat) (s : Nat) :
    goShiftRight (n : Int) (s : Int) = ((n / 2 ^ s : Nat) : Int) := by
  rw [goShiftRight, if_pos (by omega), Int.toNat_natCast]
  have : (2 : Int) ^ s = ((2 ^ s : Nat) : Int) := by push_cast; ring
  rw [this, int_fdiv_ofNat]

theorem goShiftLeft_nonneg (x : Int) (s : Nat) :
    goShiftLeft x (s : Int) = x * 2 ^ s := by
  rw [goShiftLeft, if_pos (by omega), Int.toNat_natCast]

/-! ## The constructor is well-formed -/

theorem bucketsNeededLoop_post :
    ∀ (fuel : Nat) (t maxV bn : Int), 1 ≤ t → maxV ≤ t * 2 ^ fuel →
      ∃ k : Nat, bucketsNeededLoop fuel t maxV bn = bn + k ∧ maxV ≤ t * 2 ^ k := by
  intro fuel
  induction fuel with
  | zero =>
    intro t maxV bn ht hm
    refine ⟨0, by simp [bucketsNeededLoop], ?_⟩
    simpa using hm
  | succ fuel ih =>
    intro t maxV bn ht hm
    rw [bucketsNeededLoop]
    by_cases hlt : t < maxV
    · rw [if_pos hlt]
      have h2 : maxV ≤ t * 2 * 2 ^ fuel := by
        calc maxV ≤ t * 2 ^ (fuel + 1) := hm
        _ = t * 2 * 2 ^ fuel := by ring
      obtain ⟨k, hk1, hk2⟩ := ih (t * 2) maxV (bn + 1) (by omega) h2
      refine ⟨k + 1, by rw [hk1]; push_cast; ring, ?_⟩
      calc maxV ≤ t * 2 * 2 ^ k := hk2
      _ = t * 2 ^ (k + 1) := by ring
    · rw [if_neg hlt]
      exact ⟨0, by simp, by simpa using not_lt.1 hlt⟩

theorem New_eq (lo hi s : Int) :
    New lo hi s =
      { lowestTrackableValue := lo
        highestTrackableValue := hi
        unitMagnitude := newU lo
        significantFigures := s
        subBucketHalfCountMagnitude := newMag s
        subBucketHalfCount := newSbc s / 2
        subBucketMask := (newSbc s - 1) * 2 ^ (newU lo).toNat
        subBucketCount := newSbc s
        bucketCount := newBc hi s
        countsLen := (newBc hi s + 1) * (newSbc s / 2)
        totalCount := 0
        counts := List.replicate ((newBc hi s + 1) * (newSbc s / 2)).toNat 0 } := rfl

theorem newMag_nonneg (s : Int) : 0 ≤ newMag s := by
  rw [newMag]
  split <;> omega

theorem newU_nonneg (lo : Int) : 0 ≤ newU lo := by
  rw [newU, floorLog2Clamped]
  exact le_max_right _ _

theorem newSbc_eq (s : Int) : newSbc s = (2 : Int) ^ ((newMag s).toNat + 1) := by
  have h1 : (newMag s + 1).toNat = (newMag s).toNat + 1 := by
    have := newMag_nonneg s
    omega
  rw [newSbc, h1]

theorem newSbc_half (s : Int) : newSbc s / 2 = (2 : Int) ^ (newMag s).toNat := by
  rw [newSbc_eq, pow_succ, Int.mul_ediv_cancel _ (by omega)]

theorem newU_eq (lo : Int) (hlo : 1 ≤ lo) :
    newU lo = ((bitLenNat lo.toNat - 1 : Nat) : Int) := by
  have hbitlo : bitLen lo = (bitLenNat lo.toNat : Int) := by
    conv_lhs => rw [show lo = (lo.toNat : Int) from (Int.toNat_of_nonneg (by omega)).symm]
    rw [bitLen_ofNat]
  have hLpos : 1 ≤ bitLenNat lo.toNat := bitLenNat_pos _ (by omega)
  rw [newU, floorLog2Clamped, hbitlo, max_eq_left (by omega)]
  omega

theorem newBc_post (hi s : Int) :
    ∃ k : Nat, newBc hi s = 1 + (k : Int) ∧ hi ≤ (newSbc s - 1) * 2 ^ k := by
  have hsb2 : (2 : Int) ≤ newSbc s := by
    rw [newSbc_eq, pow_succ]
    have h0 : (0 : Int) < 2 ^ (newMag s).toNat := by positivity
    omega
  have h1 : hi ≤ 2 ^ (hi.toNat + 1) := by
    have h2 : (hi.toNat : Int) < (2 : Int) ^ hi.toNat := by
      exact_mod_cast Nat.lt_two_pow hi.toNat
    have h3 : (2 : Int) ^ hi.toNat ≤ 2 ^ (hi.toNat + 1) := by
      have h4 : (0 : Int) < 2 ^ hi.toNat := by positivity
      calc (2 : Int) ^ hi.toNat ≤ 2 ^ hi.toNat * 2 := by omega
      _ = 2 ^ (hi.toNat + 1) := by ring
    have h4 : hi ≤ (hi.toNat : Int) := Int.self_le_toNat hi
    omega
  have hfuel : hi ≤ (newSbc s - 1) * 2 ^ (hi.toNat + 1) := by
    calc hi ≤ 2 ^ (hi.toNat + 1) := h1
    _ = 1 * 2 ^ (hi.toNat + 1) := by ring
    _ ≤ (newSbc s - 1) * 2 ^ (hi.toNat + 1) := by
        apply mul_le_mul_of_nonneg_right (by omega)
        positivity
  obtain ⟨k, hk1, hk2⟩ :=
    bucketsNeededLoop_post (hi.toNat + 1) (newSbc s - 1) hi 1 (by omega) hfuel
  exact ⟨k, by rw [newBc, hk1], hk2⟩

theorem New_wf {lo hi s : Int} (hlo : 1 ≤ lo) : WF (New lo hi s) := by
  obtain ⟨k, hbc, htrk⟩ := newBc_post hi s
  have hmag := newMag_nonneg s
  have hunn := newU_nonneg lo
  refine ⟨?_, ?_, ?_, ?_, ?_, ?_, ?_, ?_, ?_, ?_, ?_, ?_, ?_⟩ <;>
    rw [New_eq] <;> simp only [Histogram.mNat, Histogram.uNat]
  · omega
  · omega
  · exact newSbc_eq s
  · exact newSbc_half s
  · rw [newSbc_eq]
  · omega
  · rw [newSbc_half]
  · simp
  · intro c hc
    rw [List.eq_of_mem_replicate hc]
  · simp
  · rw [hbc]
    have hkt : ((1 : Int) + k - 1).toNat = k := by omega
    rw [hkt]
    have : newSbc s - 1 = (2 : Int) ^ ((newMag s).toNat + 1) - 1 := by rw [newSbc_eq]
    rw [this] at htrk
    exact htrk
  · exact hlo
  · have h2 : lo.toNat < 2 ^ bitLenNat lo.toNat := lt_two_pow_bitLenNat _
    have hLpos : 1 ≤ bitLenNat lo.toNat := bitLenNat_pos _ (by omega)
    have h3 : lo = (lo.toNat : Int) := (Int.toNat_of_nonneg (by omega)).symm
    rw [newU_eq lo hlo, Int.toNat_natCast]
    have h4 : bitLenNat lo.toNat - 1 + 1 = bitLenNat lo.toNat := by omega
    rw [h4, h3]
    exact_mod_cast h2

/-! ## Index mapping geometry -/

theorem natCast_two_pow (n : Nat) : ((2 ^ n : Nat) : Int) = 2 ^ n := by push_cast; ring

theorem bitLenNat_mask (U M : Nat) : bitLenNat (2 ^ (U + M + 1) - 2 ^ U) = U + M + 1 := by
  apply bitLenNat_eq_of_bounds
  · have h1 : (2 : Nat) ^ U ≤ 2 ^ (U + M) := Nat.pow_le_pow_right (by omega) (by omega)
    have h2 : (2 : Nat) ^ (U + M + 1) = 2 ^ (U + M) + 2 ^ (U + M) := by
      rw [pow_succ]; ring
    omega
  · have h1 : (1 : Nat) ≤ 2 ^ U := Nat.one_le_two_pow
    have h2 : (0 : Nat) < 2 ^ (U + M + 1) := Nat.two_pow_pos _
    omega

theorem mask_eq_natCast {h : Histogram} (wf : WF h) :
    h.subBucketMask = ((2 ^ (h.uNat + h.mNat + 1) - 2 ^ h.uNat : Nat) : Int) := by
  rw [wf.hmask]
  have h1 : (2 : Nat) ^ h.uNat ≤ 2 ^ (h.uNat + h.mNat + 1) :=
    Nat.pow_le_pow_right (by omega) (by omega)
  rw [Nat.cast_sub h1]
  push_cast
  ring

theorem getBucketIndex_eq {h : Histogram} (wf : WF h) {v : Int} (h0 : 0 ≤ v) :
    h.getBucketIndex v =
      ((max (bitLenNat v.toNat) (h.uNat + h.mNat + 1) : Nat) : Int)
        - ((h.uNat + h.mNat + 1 : Nat) : Int) := by
  rw [Histogram.getBucketIndex, mask_eq_natCast wf]
  conv_lhs => rw [show v = (v.toNat : Int) from (Int.toNat_of_nonneg h0).symm]
  rw [int_lor_ofNat, bitLen_ofNat, bitLenNat_lor, bitLenNat_mask, wf.hu, wf.hm]
  push_cast
  ring

theorem class_repr {h : Histogram} (wf : WF h) {B S : Nat} (hS : S < 2 ^ (h.mNat + 1))
    (hB : B = 0 ∨ 2 ^ h.mNat ≤ S) {w : Int}
    (hw1 : (S : Int) * 2 ^ (B + h.uNat) ≤ w) (hw2 : w < ((S : Int) + 1) * 2 ^ (B + h.uNat)) :
    h.getBucketIndex w = (B : Int) ∧ h.getSubBucketIdx w (B : Int) = (S : Int) := by
  have hpow : (0 : Int) < 2 ^ (B + h.uNat) := by positivity
  have h0 : (0 : Int) ≤ w := le_trans (by positivity) hw1
  have hWeq : w = (w.toNat : Int) := (Int.toNat_of_nonneg h0).symm
  have hw1N : S * 2 ^ (B + h.uNat) ≤ w.toNat := by
    have hx : ((S * 2 ^ (B + h.uNat) : Nat) : Int) ≤ (w.toNat : Int) := by
      rw [← hWeq]; push_cast; exact hw1
    exact_mod_cast hx
  have hw2N : w.toNat < (S + 1) * 2 ^ (B + h.uNat) := by
    have hx : (w.toNat : Int) < (((S + 1) * 2 ^ (B + h.uNat) : Nat) : Int) := by
      rw [← hWeq]; push_cast; linarith
    exact_mod_cast hx
  have hlenle : bitLenNat w.toNat ≤ B + h.uNat + h.mNat + 1 := by
    apply (bitLenNat_le_iff _ _).2
    calc w.toNat < (S + 1) * 2 ^ (B + h.uNat) := hw2N
    _ ≤ 2 ^ (h.mNat + 1) * 2 ^ (B + h.uNat) := Nat.mul_le_mul_right _ (by omega)
    _ = 2 ^ (h.mNat + 1 + (B + h.uNat)) := (pow_add 2 _ _).symm
    _ = 2 ^ (B + h.uNat + h.mNat + 1) := by congr 1; omega
  have hleneq : 2 ^ h.mNat ≤ S → bitLenNat w.toNat = B + h.uNat + h.mNat + 1 := by
    intro hge
    apply bitLenNat_eq_of_bounds
    · calc 2 ^ (B + h.uNat + h.mNat) = 2 ^ (h.mNat + (B + h.uNat)) := by congr 1; omega
      _ = 2 ^ h.mNat * 2 ^ (B + h.uNat) := pow_add 2 _ _
      _ ≤ S * 2 ^ (B + h.uNat) := Nat.mul_le_mul_right _ hge
      _ ≤ w.toNat := hw1N
    · calc w.toNat < (S + 1) * 2 ^ (B + h.uNat) := hw2N
      _ ≤ 2 ^ (h.mNat + 1) * 2 ^ (B + h.uNat) := Nat.mul_le_mul_right _ (by omega)
      _ = 2 ^ (h.mNat + 1 + (B + h.uNat)) := (pow_add 2 _ _).symm
      _ = 2 ^ (B + h.uNat + h.mNat + 1) := by congr 1; omega
  have hbucket : h.getBucketIndex w = (B : Int) := by
    rw [getBucketIndex_eq wf h0]
    rcases hB with hB0 | hge
    · subst hB0
      have hmax : max (bitLenNat w.toNat) (h.uNat + h.mNat + 1) = h.uNat + h.mNat + 1 :=
        max_eq_right (by omega)
      rw [hmax]
      push_cast
      ring
    · have heq := hleneq hge
      have hmax : max (bitLenNat w.toNat) (h.uNat + h.mNat + 1) = B + h.uNat + h.mNat + 1 := by
        rw [heq]
        exact max_eq_left (by omega)
      rw [hmax]
      push_cast
      ring
  refine ⟨hbucket, ?_⟩
  rw [Histogram.getSubBucketIdx, wf.hu]
  have hcast : (B : Int) + (h.uNat : Int) = ((B + h.uNat : Nat) : Int) := by push_cast; ring
  rw [hcast, hWeq, goShiftRight_ofNat]
  have hd1 : S ≤ w.toNat / 2 ^ (B + h.uNat) :=
    (Nat.le_div_iff_mul_le (Nat.two_pow_pos _)).2 hw1N
  have hd2 : w.toNat / 2 ^ (B + h.uNat) < S + 1 :=
    (Nat.div_lt_iff_lt_mul (Nat.two_pow_pos _)).2 hw2N
  have hdiv : w.toNat / 2 ^ (B + h.uNat) = S := by omega
  rw [hdiv]

theorem index_shape {h : Histogram} (wf : WF h) {v : Int} (h0 : 0 ≤ v) :
    ∃ B S : Nat,
      S < 2 ^ (h.mNat + 1) ∧ (B = 0 ∨ 2 ^ h.mNat ≤ S) ∧
      (S : Int) * 2 ^ (B + h.uNat) ≤ v ∧ v < ((S : Int) + 1) * 2 ^ (B + h.uNat) ∧
      (∀ c : Nat, v < (2 : Int) ^ (h.uNat + h.mNat + 1 + c) → B ≤ c) := by
  have hWeq : v = (v.toNat : Int) := (Int.toNat_of_nonneg h0).symm
  set V := v.toNat with hV
  set L := bitLenNat V with hL
  refine ⟨L - (h.uNat + h.mNat + 1), V / 2 ^ (L - (h.uNat + h.mNat + 1) + h.uNat), ?_, ?_, ?_, ?_, ?_⟩
  · -- S < 2 ^ (mNat + 1)
    apply (Nat.div_lt_iff_lt_mul (Nat.two_pow_pos _)).2
    calc V < 2 ^ L := lt_two_pow_bitLenNat V
    _ ≤ 2 ^ (h.mNat + 1 + (L - (h.uNat + h.mNat + 1) + h.uNat)) :=
        Nat.pow_le_pow_right (by omega) (by omega)
    _ = 2 ^ (h.mNat + 1) * 2 ^ (L - (h.uNat + h.mNat + 1) + h.uNat) := pow_add 2 _ _
  · -- B = 0 or the sub index is in the upper half
    rcases Nat.eq_zero_or_pos (L - (h.uNat + h.mNat + 1)) with hB0 | hBpos
    · exact Or.inl hB0
    · right
      apply (Nat.le_div_iff_mul_le (Nat.two_pow_pos _)).2
      have hL1 : 1 ≤ L := by omega
      have hV1 : 1 ≤ V := by
        by_contra hc
        push_neg at hc
        have : V = 0 := by omega
        rw [this] at hL
        have : L = 0 := by rw [hL]; rfl
        omega
      calc 2 ^ h.mNat * 2 ^ (L - (h.uNat + h.mNat + 1) + h.uNat)
          = 2 ^ (h.mNat + (L - (h.uNat + h.mNat + 1) + h.uNat)) := (pow_add 2 _ _).symm
      _ = 2 ^ (L - 1) := by congr 1; omega
      _ ≤ V := two_pow_le_of_bitLenNat V hV1
  · -- lower sandwich bound
    rw [hWeq]
    have hle : V / 2 ^ (L - (h.uNat + h.mNat + 1) + h.uNat) * 2 ^ (L - (h.uNat + h.mNat + 1) + h.uNat) ≤ V :=
      Nat.div_mul_le_self _ _
    exact_mod_cast hle
  · -- upper sandwich bound
    rw [hWeq]
    have hlt : V < (V / 2 ^ (L - (h.uNat + h.mNat + 1) + h.uNat) + 1) * 2 ^ (L - (h.uNat + h.mNat + 1) + h.uNat) :=
      (Nat.div_lt_iff_lt_mul (Nat.two_pow_pos _)).1 (by omega)
    exact_mod_cast hlt
  · -- the bucket index is as small as the value bound forces
    intro c hc
    have hcN : V < 2 ^ (h.uNat + h.mNat + 1 + c) := by
      have hx : (V : Int) < ((2 ^ (h.uNat + h.mNat + 1 + c) : Nat) : Int) := by
        rw [← hWeq, natCast_two_pow]
        exact hc
      exact_mod_cast hx
    have : L ≤ h.uNat + h.mNat + 1 + c := (bitLenNat_le_iff _ _).2 hcN
    omega

theorem countsIndexFor_shape {h : Histogram} (wf : WF h) {v : Int} (h0 : 0 ≤ v) :
    ∃ B S : Nat,
      h.getBucketIndex v = (B : Int) ∧ h.getSubBucketIdx v (B : Int) = (S : Int) ∧
      S < 2 ^ (h.mNat + 1) ∧ (B = 0 ∨ 2 ^ h.mNat ≤ S) ∧
      (S : Int) * 2 ^ (B + h.uNat) ≤ v ∧ v < ((S : Int) + 1) * 2 ^ (B + h.uNat) ∧
      h.countsIndexFor v = ((B * 2 ^ h.mNat + S : Nat) : Int) ∧
      (∀ c : Nat, v < (2 : Int) ^ (h.uNat + h.mNat + 1 + c) → B ≤ c) := by
  obtain ⟨B, S, hS, hB, hw1, hw2, hsmall⟩ := index_shape wf h0
  obtain ⟨hb, hs⟩ := class_repr wf hS hB hw1 hw2
  refine ⟨B, S, hb, hs, hS, hB, hw1, hw2, ?_, hsmall⟩
  simp only [Histogram.countsIndexFor]
  rw [hb, hs, Histogram.countsIndex, wf.hhalf]
  have hmn : h.subBucketHalfCountMagnitude.toNat = h.mNat := rfl
  rw [hmn]
  push_cast
  ring

theorem countsIndexFor_bounds {h : Histogram} (wf : WF h) {v : Int} (h0 : 0 ≤ v)
    (hv : v ≤ h.highestTrackableValue) :
    0 ≤ h.countsIndexFor v ∧ h.countsIndexFor v < h.countsLen := by
  obtain ⟨B, S, _, _, hS, hB, hw1, hw2, hidx, hsmall⟩ := countsIndexFor_shape wf h0
  have hp : (0 : Int) < 2 ^ h.mNat := by positivity
  constructor
  · rw [hidx]; positivity
  · set E := (h.bucketCount - 1).toNat with hE
    have hBE : B ≤ E := by
      apply hsmall
      calc v ≤ h.highestTrackableValue := hv
      _ ≤ ((2 : Int) ^ (h.mNat + 1) - 1) * 2 ^ E := wf.htrack
      _ < 2 ^ (h.mNat + 1) * 2 ^ E := by
          apply mul_lt_mul_of_pos_right (by omega) (by positivity)
      _ = 2 ^ (h.mNat + 1 + E) := (pow_add 2 _ _).symm
      _ ≤ 2 ^ (h.uNat + h.mNat + 1 + E) := by
          apply pow_le_pow_right₀ (by omega) (by omega)
    have hbcE : h.bucketCount = (E : Int) + 1 := by
      have := wf.hbc
      omega
    rw [hidx, wf.hlen, hbcE]
    have hSlt : (S : Int) < 2 * 2 ^ h.mNat := by
      have hx : (S : Int) < ((2 ^ (h.mNat + 1) : Nat) : Int) := by exact_mod_cast hS
      rw [natCast_two_pow] at hx
      calc (S : Int) < 2 ^ (h.mNat + 1) := hx
      _ = 2 * 2 ^ h.mNat := by ring
    have hBE' : (B : Int) ≤ (E : Int) := by exact_mod_cast hBE
    have step1 : ((B * 2 ^ h.mNat + S : Nat) : Int) = (B : Int) * 2 ^ h.mNat + S := by
      push_cast; ring
    rw [step1]
    have step2 : (B : Int) * 2 ^ h.mNat + S < ((B : Int) + 2) * 2 ^ h.mNat := by nlinarith
    have step3 : ((B : Int) + 2) * 2 ^ h.mNat ≤ ((E : Int) + 1 + 1) * 2 ^ h.mNat := by
      apply mul_le_mul_of_nonneg_right (by omega) (by positivity)
    linarith

theorem equiv_formulas {h : Histogram} (wf : WF h) {B S : Nat} (hS : S < 2 ^ (h.mNat + 1))
    (hB : B = 0 ∨ 2 ^ h.mNat ≤ S) {w : Int}
    (hw1 : (S : Int) * 2 ^ (B + h.uNat) ≤ w) (hw2 : w < ((S : Int) + 1) * 2 ^ (B + h.uNat)) :
    h.lowestEquivalentValue w = (S : Int) * 2 ^ (B + h.uNat) ∧
    h.sizeOfEquivalentValueRange w = 2 ^ (B + h.uNat) ∧
    h.highestEquivalentValue w = ((S : Int) + 1) * 2 ^ (B + h.uNat) - 1 := by
  obtain ⟨hb, hs⟩ := class_repr wf hS hB hw1 hw2
  have hvfi : h.valueFromIndex (B : Int) (S : Int) = (S : Int) * 2 ^ (B + h.uNat) := by
    rw [Histogram.valueFromIndex, wf.hu]
    have hcast : (B : Int) + (h.uNat : Int) = ((B + h.uNat : Nat) : Int) := by push_cast; ring
    rw [hcast, goShiftLeft_nonneg]
  have hlow : h.lowestEquivalentValue w = (S : Int) * 2 ^ (B + h.uNat) := by
    simp only [Histogram.lowestEquivalentValue]
    rw [hb, hs, hvfi]
  have hsz : h.sizeOfEquivalentValueRange w = 2 ^ (B + h.uNat) := by
    simp only [Histogram.sizeOfEquivalentValueRange]
    rw [hb, hs]
    have hcond : ¬ h.subBucketCount ≤ (S : Int) := by
      rw [wf.hsbc]
      have hx : (S : Int) < ((2 ^ (h.mNat + 1) : Nat) : Int) := by exact_mod_cast hS
      rw [natCast_two_pow] at hx
      omega
    rw [if_neg hcond, wf.hu]
    have hcast : (h.uNat : Int) + (B : Int) = ((B + h.uNat : Nat) : Int) := by push_cast; ring
    rw [hcast, goShiftLeft_nonneg]
    ring
  refine ⟨hlow, hsz, ?_⟩
  rw [Histogram.highestEquivalentValue, Histogram.nextNonEquivalentValue, hlow, hsz]
  ring

/-! ## Recording -/

theorem RecordValues_none {h : Histogram} {v n : Int}
    (hout : h.countsIndexFor v < 0 ∨ h.countsLen ≤ h.countsIndexFor v) :
    h.RecordValues v n = none := by
  simp only [Histogram.RecordValues]
  rw [if_pos hout]

theorem RecordValues_some {h : Histogram} {v n : Int} (hin1 : 0 ≤ h.countsIndexFor v)
    (hin2 : h.countsIndexFor v < h.countsLen) :
    h.RecordValues v n = some { h with
      counts := h.counts.set (h.countsIndexFor v).toNat
        (h.counts.getD (h.countsIndexFor v).toNat 0 + n)
      totalCount := h.totalCount + n } := by
  simp only [Histogram.RecordValues]
  rw [if_neg (by push_neg; exact ⟨hin1, hin2⟩)]

theorem RecordValues_isSome_iff {h : Histogram} {v n : Int} :
    (h.RecordValues v n).isSome ↔ 0 ≤ h.countsIndexFor v ∧ h.countsIndexFor v < h.countsLen := by
  constructor
  · intro hs
    by_cases hout : h.countsIndexFor v < 0 ∨ h.countsLen ≤ h.countsIndexFor v
    · rw [RecordValues_none hout] at hs
      simp at hs
    · push_neg at hout
      exact ⟨hout.1, hout.2⟩
  · intro ⟨h1, h2⟩
    rw [RecordValues_some h1 h2]
    rfl

theorem RecordValues_wf {h h' : Histogram} (wf : WF h) {v n : Int} (hn : 0 ≤ n)
    (hrec : h.RecordValues v n = some h') : WF h' := by
  by_cases hout : h.countsIndexFor v < 0 ∨ h.countsLen ≤ h.countsIndexFor v
  · rw [RecordValues_none hout] at hrec
    cases hrec
  · push_neg at hout
    rw [RecordValues_some hout.1 hout.2] at hrec
    have hh' := Option.some.inj hrec
    subst hh'
    have hidxlt : (h.countsIndexFor v).toNat < h.counts.length := by
      rw [wf.hcounts]
      omega
    refine ⟨wf.hu, wf.hm, wf.hsbc, wf.hhalf, wf.hmask, wf.hbc, wf.hlen, ?_, ?_, ?_, wf.htrack,
      wf.hlow, wf.hlowu⟩
    · simp only [List.length_set]
      exact wf.hcounts
    · intro c hc
      rcases List.mem_or_eq_of_mem_set hc with hmem | heq
      · exact wf.hnonneg c hmem
      · have hd : 0 ≤ h.counts.getD (h.countsIndexFor v).toNat 0 := by
          rw [List.getD_eq_getElem h.counts 0 hidxlt]
          exact wf.hnonneg _ (List.getElem_mem hidxlt)
        omega
    · rw [sum_set_int _ _ _ hidxlt, ← wf.htotal]
      ring

theorem Reachable.wf {h : Histogram} (hr : Reachable h) : WF h := by
  induction hr with
  | new lo hi s hlo => exact New_wf hlo
  | record hr hn hrec ih => exact RecordValues_wf ih hn hrec

/-! ## The slot sequence -/

theorem countsIndex_cast {h : Histogram} (wf : WF h) (B S : Nat) :
    h.countsIndex (B : Int) (S : Int) = ((B * 2 ^ h.mNat + S : Nat) : Int) := by
  rw [Histogram.countsIndex, wf.hhalf]
  have hmn : h.subBucketHalfCountMagnitude.toNat = h.mNat := rfl
  rw [hmn]
  push_cast
  ring

theorem valueFromIndex_cast {h : Histogram} (wf : WF h) (B S : Nat) :
    h.valueFromIndex (B : Int) (S : Int) = (S : Int) * 2 ^ (B + h.uNat) := by
  rw [Histogram.valueFromIndex, wf.hu]
  have hcast : (B : Int) + (h.uNat : Int) = ((B + h.uNat : Nat) : Int) := by push_cast; ring
  rw [hcast, goShiftLeft_nonneg]

theorem slotAt_spec (h : Histogram) (k : Nat) :
    (slotAt h k).2 < 2 ^ (h.mNat + 1) ∧
    ((slotAt h k).1 = 0 ∨ 2 ^ h.mNat ≤ (slotAt h k).2) ∧
    k = (slotAt h k).1 * 2 ^ h.mNat + (slotAt h k).2 := by
  induction k with
  | zero =>
    exact ⟨Nat.two_pow_pos _, Or.inl rfl, by simp [slotAt]⟩
  | succ k ih =>
    obtain ⟨hS, hB, hk⟩ := ih
    rcases hp : slotAt h k with ⟨B, S⟩
    simp only [hp] at hS hB hk
    have hpow : (2 : Nat) ^ (h.mNat + 1) = 2 ^ h.mNat + 2 ^ h.mNat := by rw [pow_succ]; ring
    have hstep : slotAt h (k + 1) = slotSucc h (B, S) := by
      rw [show slotAt h (k + 1) = slotSucc h (slotAt h k) from rfl, hp]
    by_cases hc : 2 ^ (h.mNat + 1) ≤ S + 1
    · have hslot : slotAt h (k + 1) = (B + 1, 2 ^ h.mNat) := by
        rw [hstep, slotSucc, if_pos (by simpa using hc)]
      simp only [hslot]
      have hmul : (B + 1) * 2 ^ h.mNat = B * 2 ^ h.mNat + 2 ^ h.mNat := by ring
      refine ⟨by omega, Or.inr (le_refl _), by omega⟩
    · have hslot : slotAt h (k + 1) = (B, S + 1) := by
        rw [hstep, slotSucc, if_neg (by simpa using hc)]
      simp only [hslot]
      refine ⟨by omega, ?_, by omega⟩
      rcases hB with hB0 | hge
      · exact Or.inl hB0
      · exact Or.inr (by omega)

theorem slot_unique {P B S B' S' : Nat} (hP : 1 ≤ P)
    (v1 : S < 2 * P) (d1 : B = 0 ∨ P ≤ S) (v2 : S' < 2 * P) (d2 : B' = 0 ∨ P ≤ S')
    (heq : B * P + S = B' * P + S') : B = B' ∧ S = S' := by
  rcases lt_trichotomy B B' with hlt | heqB | hgt
  · exfalso
    have h1 : (B + 1) * P ≤ B' * P := Nat.mul_le_mul_right _ (by omega)
    have h2 : (B + 1) * P = B * P + P := by ring
    have hS' : P ≤ S' := by
      rcases d2 with h3 | h3
      · omega
      · exact h3
    omega
  · constructor
    · exact heqB
    · subst heqB; omega
  · exfalso
    have h1 : (B' + 1) * P ≤ B * P := Nat.mul_le_mul_right _ (by omega)
    have h2 : (B' + 1) * P = B' * P + P := by ring
    have hS : P ≤ S := by
      rcases d1 with h3 | h3
      · omega
      · exact h3
    omega

theorem countsLen_toNat {h : Histogram} (wf : WF h) :
    h.countsLen.toNat = ((h.bucketCount - 1).toNat + 2) * 2 ^ h.mNat := by
  have hE : (((h.bucketCount - 1).toNat : Nat) : Int) = h.bucketCount - 1 :=
    Int.toNat_of_nonneg (by have := wf.hbc; omega)
  have hcast : h.countsLen = ((((h.bucketCount - 1).toNat + 2) * 2 ^ h.mNat : Nat) : Int) := by
    rw [wf.hlen]
    push_cast
    rw [hE]
    ring
  rw [hcast, Int.toNat_natCast]

theorem slot_lt_len_iff {h : Histogram} (wf : WF h) {k B S : Nat}
    (hS : S < 2 ^ (h.mNat + 1)) (hB : B = 0 ∨ 2 ^ h.mNat ≤ S) (hk : k = B * 2 ^ h.mNat + S) :
    k < h.countsLen.toNat ↔ B < (h.bucketCount - 1).toNat + 1 := by
  rw [countsLen_toNat wf]
  set E := (h.bucketCount - 1).toNat with hE
  have hpow : (2 : Nat) ^ (h.mNat + 1) = 2 * 2 ^ h.mNat := by rw [pow_succ]; ring
  constructor
  · intro hlen
    by_contra hc
    push_neg at hc
    have hB1 : 1 ≤ B := by omega
    have hSge : 2 ^ h.mNat ≤ S := by
      rcases hB with h3 | h3
      · omega
      · exact h3
    have h1 : (E + 1) * 2 ^ h.mNat ≤ B * 2 ^ h.mNat := Nat.mul_le_mul_right _ (by omega)
    have h2 : (E + 2) * 2 ^ h.mNat = (E + 1) * 2 ^ h.mNat + 2 ^ h.mNat := by ring
    omega
  · intro hBlt
    have h1 : B * 2 ^ h.mNat ≤ E * 2 ^ h.mNat := Nat.mul_le_mul_right _ (by omega)
    have h2 : (E + 2) * 2 ^ h.mNat = E * 2 ^ h.mNat + 2 * 2 ^ h.mNat := by ring
    omega

theorem bucketCount_cast {h : Histogram} (wf : WF h) {B : Nat} :
    (B : Int) < h.bucketCount ↔ B < (h.bucketCount - 1).toNat + 1 := by
  have hE : (((h.bucketCount - 1).toNat : Nat) : Int) = h.bucketCount - 1 :=
    Int.toNat_of_nonneg (by have := wf.hbc; omega)
  omega

theorem valueAt_eq {h : Histogram} (wf : WF h) (k : Nat) :
    valueAt h k = (((slotAt h k).2 : Nat) : Int) * 2 ^ ((slotAt h k).1 + h.uNat) :=
  valueFromIndex_cast wf _ _

theorem valueAt_succ_eq {h : Histogram} (wf : WF h) (k : Nat) :
    valueAt h (k + 1) = ((((slotAt h k).2 : Nat) : Int) + 1) * 2 ^ ((slotAt h k).1 + h.uNat) := by
  obtain ⟨hS, hB, hk⟩ := slotAt_spec h k
  rcases hp : slotAt h k with ⟨B, S⟩
  simp only [hp] at hS hB hk ⊢
  have hstep : slotAt h (k + 1) = slotSucc h (B, S) := by
    rw [show slotAt h (k + 1) = slotSucc h (slotAt h k) from rfl, hp]
  by_cases hc : 2 ^ (h.mNat + 1) ≤ S + 1
  · have hslot : slotAt h (k + 1) = (B + 1, 2 ^ h.mNat) := by
      rw [hstep, slotSucc, if_pos (by simpa using hc)]
    rw [valueAt]
    simp only [hslot]
    have hform := valueFromIndex_cast wf (B + 1) (2 ^ h.mNat)
    rw [hform]
    have hS1 : S + 1 = 2 ^ (h.mNat + 1) := by omega
    have hcast : ((S : Int)) + 1 = ((2 ^ (h.mNat + 1) : Nat) : Int) := by
      rw [← hS1]
      push_cast
      ring
    rw [natCast_two_pow, hcast, natCast_two_pow]
    rw [← pow_add, ← pow_add]
    congr 1
    omega
  · have hslot : slotAt h (k + 1) = (B, S + 1) := by
      rw [hstep, slotSucc, if_neg (by simpa using hc)]
    rw [valueAt]
    simp only [hslot]
    have hform := valueFromIndex_cast wf B (S + 1)
    rw [hform]
    push_cast
    ring

theorem hEq_valueAt {h : Histogram} (wf : WF h) (k : Nat) :
    h.highestEquivalentValue (valueAt h k) =
      ((((slotAt h k).2 : Nat) : Int) + 1) * 2 ^ ((slotAt h k).1 + h.uNat) - 1 := by
  obtain ⟨hS, hB, hk⟩ := slotAt_spec h k
  have hv := valueAt_eq wf k
  have hpow : (0 : Int) < 2 ^ ((slotAt h k).1 + h.uNat) := by positivity
  have h1 : (((slotAt h k).2 : Nat) : Int) * 2 ^ ((slotAt h k).1 + h.uNat) ≤ valueAt h k := by
    rw [hv]
  have h2 : valueAt h k <
      ((((slotAt h k).2 : Nat) : Int) + 1) * 2 ^ ((slotAt h k).1 + h.uNat) := by
    rw [hv]; nlinarith
  exact (equiv_formulas wf hS hB h1 h2).2.2

theorem hEq_slot_succ {h : Histogram} (wf : WF h) (k : Nat) :
    h.highestEquivalentValue (valueAt h k) + 1 = valueAt h (k + 1) := by
  rw [hEq_valueAt wf k, valueAt_succ_eq wf k]
  ring

theorem valueAt_le_hEq {h : Histogram} (wf : WF h) (k : Nat) :
    valueAt h k ≤ h.highestEquivalentValue (valueAt h k) := by
  rw [hEq_valueAt wf k, valueAt_eq wf k]
  have hpow : (0 : Int) < 2 ^ ((slotAt h k).1 + h.uNat) := by positivity
  nlinarith

theorem hEq_slot_mono {h : Histogram} (wf : WF h) {j k : Nat} (hjk : j ≤ k) :
    h.highestEquivalentValue (valueAt h j) ≤ h.highestEquivalentValue (valueAt h k) := by
  induction k with
  | zero =>
    have : j = 0 := by omega
    subst this; exact le_refl _
  | succ k ih =>
    rcases Nat.lt_or_ge j (k + 1) with hj | hj
    · have h1 := ih (by omega)
      have h2 := hEq_slot_succ wf k
      have h3 := valueAt_le_hEq wf (k + 1)
      omega
    · have : j = k + 1 := by omega
      subst this; exact le_refl _
/-! ## Iterator steps -/

theorem posState_countToIdx (h : Histogram) (k : Nat) :
    (posState h k).countToIdx = sumTo h.counts k := by
  cases k <;> rfl

theorem iterNext_stop {h : Histogram} (k : Nat)
    (hge : h.totalCount ≤ sumTo h.counts k) :
    h.iterNext (posState h k) = (posState h k, false) := by
  simp only [Histogram.iterNext]
  rw [if_pos (by rw [posState_countToIdx]; exact hge)]

theorem iterNext_step {h : Histogram} (wf : WF h) {k : Nat} (hk : k < h.countsLen.toNat)
    (hlt : sumTo h.counts k < h.totalCount) :
    h.iterNext (posState h k) = (posState h (k + 1), true) := by
  obtain ⟨hS, hB, hkeq⟩ := slotAt_spec h k
  have hblt : ((slotAt h k).1 : Int) < h.bucketCount :=
    (bucketCount_cast wf).2 ((slot_lt_len_iff wf hS hB hkeq).1 hk)
  have hcnt : h.getCountAtIndex ((slotAt h k).1 : Int) ((slotAt h k).2 : Int)
      = h.counts.getD k 0 := by
    rw [Histogram.getCountAtIndex, countsIndex_cast wf, ← hkeq, Int.toNat_natCast]
  cases k with
  | zero =>
    have hslot0 : slotAt h 0 = (0, 0) := rfl
    rw [hslot0] at hcnt
    norm_num at hcnt
    have hsum1 : sumTo h.counts (0 + 1) = h.counts.getD 0 0 := by
      rw [sumTo_succ]
      have h0 : sumTo h.counts 0 = 0 := rfl
      rw [h0]; ring
    simp only [Histogram.iterNext, posState, Histogram.iterator]
    rw [if_neg (by have h0 : sumTo h.counts 0 = 0 := rfl; rw [h0] at hlt; omega)]
    rw [if_neg (show ¬ h.subBucketCount ≤ -1 + 1 by
      rw [wf.hsbc]
      have hp : (0 : Int) < 2 ^ (h.mNat + 1) := by positivity
      omega)]
    rw [if_neg (show ¬ h.bucketCount ≤ (0 : Int) by have := wf.hbc; omega)]
    simp [valueAt, hslot0, hcnt, sumTo_succ, sumTo_zero]
  | succ j =>
    obtain ⟨hSj, hBj, hkj⟩ := slotAt_spec h j
    rcases hpj : slotAt h j with ⟨Bj, Sj⟩
    simp only [hpj] at hSj hBj hkj
    have hstep : slotAt h (j + 1) = slotSucc h (Bj, Sj) := by
      rw [show slotAt h (j + 1) = slotSucc h (slotAt h j) from rfl, hpj]
    simp only [Histogram.iterNext, posState, hpj]
    rw [if_neg (show ¬ h.totalCount ≤ sumTo h.counts (j + 1) by omega)]
    by_cases hroll : 2 ^ (h.mNat + 1) ≤ Sj + 1
    · have hslotk : slotAt h (j + 1) = (Bj + 1, 2 ^ h.mNat) := by
        rw [hstep, slotSucc, if_pos (by simpa using hroll)]
      simp only [hslotk] at hblt hcnt
      rw [if_pos (show h.subBucketCount ≤ (Sj : Int) + 1 by
        rw [wf.hsbc, ← natCast_two_pow]
        have h1 : ((Sj : Int)) + 1 = ((Sj + 1 : Nat) : Int) := by push_cast; ring
        rw [h1]
        exact Nat.cast_le.2 hroll)]
      have hc1 : ((Bj : Int)) + 1 = ((Bj + 1 : Nat) : Int) := by push_cast; ring
      have hc2 : h.subBucketHalfCount = ((2 ^ h.mNat : Nat) : Int) := by
        rw [wf.hhalf, natCast_two_pow]
      rw [if_neg (show ¬ h.bucketCount ≤ (Bj : Int) + 1 by rw [hc1]; omega)]
      dsimp only
      rw [hc1, hc2, hcnt]
      simp only [valueAt, hslotk]
      rw [sumTo_succ h.counts (j + 1)]
    · have hSne : Sj + 1 < 2 ^ (h.mNat + 1) := by omega
      have hslotk : slotAt h (j + 1) = (Bj, Sj + 1) := by
        rw [hstep, slotSucc, if_neg (by simpa using hroll)]
      simp only [hslotk] at hblt hcnt
      rw [if_neg (show ¬ h.subBucketCount ≤ (Sj : Int) + 1 by
        rw [wf.hsbc, ← natCast_two_pow]
        have h1 : ((Sj : Int)) + 1 = ((Sj + 1 : Nat) : Int) := by push_cast; ring
        rw [h1]
        intro hcon
        exact absurd (Nat.cast_le.1 hcon) (by omega))]
      have hc1 : ((Sj : Int)) + 1 = ((Sj + 1 : Nat) : Int) := by push_cast; ring
      rw [if_neg (show ¬ h.bucketCount ≤ (Bj : Int) by omega)]
      dsimp only
      rw [hc1, hcnt]
      simp only [valueAt, hslotk]
      rw [sumTo_succ h.counts (j + 1)]

/-! ## Full prefix sum -/

theorem sumTo_full {h : Histogram} (wf : WF h) : sumTo h.counts h.countsLen.toNat = h.totalCount := by
  rw [← wf.hcounts, sumTo_length, ← wf.htotal]

/-! ## The Min walk -/

theorem sumTo_eq_zero {l : List Int} {k : Nat} (hz : ∀ i, i < k → l.getD i 0 = 0) :
    sumTo l k = 0 := by
  induction k with
  | zero => exact sumTo_zero l
  | succ k ih =>
    rw [sumTo_succ, ih (fun i hi => hz i (by omega)), hz k (by omega)]
    ring

theorem minLoop_walk {h : Histogram} (wf : WF h) :
    ∀ (fuel k : Nat),
      k ≤ h.countsLen.toNat → h.countsLen.toNat - k < fuel →
      (∀ i, i < k → h.counts.getD i 0 = 0) → 0 < h.totalCount →
      ∃ j : Nat, k ≤ j ∧ j < h.countsLen.toNat ∧ h.counts.getD j 0 ≠ 0 ∧
        (∀ i, i < j → h.counts.getD i 0 = 0) ∧
        h.minLoop fuel (posState h k) 0 = h.highestEquivalentValue (valueAt h j) := by
  intro fuel
  induction fuel with
  | zero =>
    intro k h1 h2 h3 h4
    omega
  | succ fuel ih =>
    intro k hklen hfuel hzero hpos
    have hs0 : sumTo h.counts k = 0 := sumTo_eq_zero hzero
    have hlt : sumTo h.counts k < h.totalCount := by omega
    have hknlen : k < h.countsLen.toNat := by
      rcases eq_or_lt_of_le hklen with heq | hlt2
      · exfalso
        rw [heq, sumTo_full wf] at hs0
        omega
      · exact hlt2
    have hstep := iterNext_step wf hknlen hlt
    simp only [Histogram.minLoop, hstep]
    have hca : (posState h (k + 1)).countAtIdx = h.counts.getD k 0 := rfl
    have hhe : (posState h (k + 1)).highestEquivalentValue =
        h.highestEquivalentValue (valueAt h k) := rfl
    rw [hca, hhe]
    by_cases hc : h.counts.getD k 0 = 0
    · rw [if_neg (fun hcon => hcon.1 hc)]
      obtain ⟨j, hj1, hj2, hj3, hj4, hj5⟩ := ih (k + 1) (by omega) (by omega)
        (fun i hi => by
          rcases Nat.lt_or_ge i k with hik | hik
          · exact hzero i hik
          · have : i = k := by omega
            subst this
            exact hc) hpos
      exact ⟨j, by omega, hj2, hj3, hj4, hj5⟩
    · rw [if_pos ⟨hc, by trivial⟩]
      exact ⟨k, le_refl _, hknlen, hc, hzero, rfl⟩

/-! ## Count conservation helpers -/

theorem RecordValues_pres {h h' : Histogram} {v n : Int}
    (hlen : h.counts.length = h.countsLen.toNat)
    (hrec : h.RecordValues v n = some h') :
    h'.counts.length = h'.countsLen.toNat ∧ h'.countsLen = h.countsLen ∧
    h'.totalCount = h.totalCount + n ∧ h'.counts.sum = h.counts.sum + n := by
  by_cases hout : h.countsIndexFor v < 0 ∨ h.countsLen ≤ h.countsIndexFor v
  · rw [RecordValues_none hout] at hrec
    cases hrec
  · push_neg at hout
    rw [RecordValues_some hout.1 hout.2] at hrec
    have hh' := Option.some.inj hrec
    subst hh'
    have hidxlt : (h.countsIndexFor v).toNat < h.counts.length := by
      rw [hlen]
      omega
    refine ⟨by simpa using hlen, rfl, rfl, ?_⟩
    rw [sum_set_int _ _ _ hidxlt]
    ring

theorem recordCorrectedLoop_pres :
    ∀ (fuel : Nat) (hg : Histogram) (missing ei : Int),
      hg.counts.length = hg.countsLen.toNat →
      (hg.recordCorrectedLoop fuel missing ei).1.counts.length =
          (hg.recordCorrectedLoop fuel missing ei).1.countsLen.toNat ∧
      (hg.recordCorrectedLoop fuel missing ei).1.totalCount -
          (hg.recordCorrectedLoop fuel missing ei).1.counts.sum =
        hg.totalCount - hg.counts.sum := by
  intro fuel
  induction fuel with
  | zero =>
    intro hg missing ei hlen
    exact ⟨hlen, rfl⟩
  | succ fuel ih =>
    intro hg missing ei hlen
    simp only [Histogram.recordCorrectedLoop]
    by_cases hc : ei ≤ missing
    · rw [if_pos hc]
      cases hrec : hg.RecordValue missing with
      | none => exact ⟨hlen, by ring⟩
      | some h1 =>
        obtain ⟨p1, p2, p3, p4⟩ := RecordValues_pres hlen hrec
        obtain ⟨q1, q2⟩ := ih h1 (missing - ei) ei p1
        exact ⟨q1, by rw [q2]; omega⟩
    · rw [if_neg hc]
      exact ⟨hlen, by ring⟩

theorem mergeLoop_pres :
    ∀ (fuel : Nat) (a f : Histogram) (r : RIterator) (dropped : Int),
      a.counts.length = a.countsLen.toNat →
      (mergeLoop fuel a f r dropped).1.counts.length =
          (mergeLoop fuel a f r dropped).1.countsLen.toNat ∧
      (mergeLoop fuel a f r dropped).1.totalCount -
          (mergeLoop fuel a f r dropped).1.counts.sum =
        a.totalCount - a.counts.sum := by
  intro fuel
  induction fuel with
  | zero =>
    intro a f r dropped hlen
    exact ⟨hlen, rfl⟩
  | succ fuel ih =>
    intro a f r dropped hlen
    have hunfold : mergeLoop (fuel + 1) a f r dropped =
        match f.rNext f.iterFuel r with
        | (r', false) => (a, f, dropped)
        | (r', true) =>
          match a.RecordValues r'.it.valueFromIdx r'.it.countAtIdx with
          | none => mergeLoop fuel a f r' (dropped + r'.it.countAtIdx)
          | some a' => mergeLoop fuel a' f r' dropped := rfl
    rw [hunfold]
    split
    · exact ⟨hlen, rfl⟩
    · next r' heq =>
      split
      · next heq2 => exact ih a f r' (dropped + r'.it.countAtIdx) hlen
      · next a' heq2 =>
        obtain ⟨p1, p2, p3, p4⟩ := RecordValues_pres hlen heq2
        obtain ⟨q1, q2⟩ := ih a' f r' dropped p1
        exact ⟨q1, by omega⟩

theorem mergeLoop_from :
    ∀ (fuel : Nat) (a f : Histogram) (r : RIterator) (dropped : Int),
      (mergeLoop fuel a f r dropped).2.1 = f := by
  intro fuel
  induction fuel with
  | zero => intro a f r dropped; rfl
  | succ fuel ih =>
    intro a f r dropped
    have hunfold : mergeLoop (fuel + 1) a f r dropped =
        match f.rNext f.iterFuel r with
        | (r', false) => (a, f, dropped)
        | (r', true) =>
          match a.RecordValues r'.it.valueFromIdx r'.it.countAtIdx with
          | none => mergeLoop fuel a f r' (dropped + r'.it.countAtIdx)
          | some a' => mergeLoop fuel a' f r' dropped := rfl
    rw [hunfold]
    split
    · rfl
    · next r' heq =>
      split
      · next heq2 => exact ih a f r' (dropped + r'.it.countAtIdx)
      · next a' heq2 => exact ih a' f r' dropped

theorem map_zero_sum (l : List Int) : (l.map fun _ => (0 : Int)).sum = 0 := by
  induction l with
  | nil => rfl
  | cons x xs ih => simp [ih]

theorem RecordCorrectedValue_pres (h : Histogram) (v ei : Int)
    (hlen : h.counts.length = h.countsLen.toNat) :
    (h.RecordCorrectedValue v ei).1.counts.length =
      (h.RecordCorrectedValue v ei).1.countsLen.toNat ∧
    (h.RecordCorrectedValue v ei).1.totalCount - (h.RecordCorrectedValue v ei).1.counts.sum =
      h.totalCount - h.counts.sum := by
  cases hrec : h.RecordValue v with
  | none =>
    simp only [Histogram.RecordCorrectedValue, hrec]
    exact ⟨hlen, by trivial⟩
  | some h1 =>
    simp only [Histogram.RecordCorrectedValue, hrec]
    obtain ⟨p1, p2, p3, p4⟩ := RecordValues_pres hlen hrec
    by_cases hif : ei ≤ 0 ∨ v ≤ ei
    · rw [if_pos hif]
      refine ⟨p1, ?_⟩
      show h1.totalCount - h1.counts.sum = h.totalCount - h.counts.sum
      omega
    · rw [if_neg hif]
      obtain ⟨q1, q2⟩ := recordCorrectedLoop_pres (v.toNat + 1) h1 (v - ei) ei p1
      refine ⟨q1, ?_⟩
      show (h1.recordCorrectedLoop (v.toNat + 1) (v - ei) ei).1.totalCount -
          (h1.recordCorrectedLoop (v.toNat + 1) (v - ei) ei).1.counts.sum =
        h.totalCount - h.counts.sum
      omega

/-! ## Claim theorems (first batch) -/

/-- C2: the invariant totalCount = sum of the counts array holds after
construction by New and is preserved by each operation that returns
successfully: RecordValues, RecordValue, RecordCorrectedValue, Merge (on the
receiver) and Reset.  The counts-length hypothesis is the data-model fact
that the counts slice has length countsLen, which New establishes and every
operation preserves. -/
theorem C2_totalCount_invariant :
    (∀ lo hi s : Int, (New lo hi s).totalCount = (New lo hi s).counts.sum) ∧
    (∀ (h h' : Histogram) (v n : Int), h.counts.length = h.countsLen.toNat →
      h.totalCount = h.counts.sum → h.RecordValues v n = some h' →
      h'.totalCount = h'.counts.sum) ∧
    (∀ (h h' : Histogram) (v : Int), h.counts.length = h.countsLen.toNat →
      h.totalCount = h.counts.sum → h.RecordValue v = some h' →
      h'.totalCount = h'.counts.sum) ∧
    (∀ (h : Histogram) (v ei : Int), h.counts.length = h.countsLen.toNat →
      h.totalCount = h.counts.sum → (h.RecordCorrectedValue v ei).2 = true →
      (h.RecordCorrectedValue v ei).1.totalCount =
        (h.RecordCorrectedValue v ei).1.counts.sum) ∧
    (∀ (a b : Histogram), a.counts.length = a.countsLen.toNat →
      a.totalCount = a.counts.sum →
      (a.Merge b).1.totalCount = (a.Merge b).1.counts.sum) ∧
    (∀ h : Histogram, h.Reset.totalCount = h.Reset.counts.sum) := by
  have hrv : ∀ (h h' : Histogram) (v n : Int), h.counts.length = h.countsLen.toNat →
      h.totalCount = h.counts.sum → h.RecordValues v n = some h' →
      h'.totalCount = h'.counts.sum := by
    intro h h' v n hlen hinv hrec
    obtain ⟨p1, p2, p3, p4⟩ := RecordValues_pres hlen hrec
    omega
  refine ⟨?_, hrv, ?_, ?_, ?_, ?_⟩
  · intro lo hi s
    rw [New_eq]
    simp
  · intro h h' v hlen hinv hrec
    exact hrv h h' v 1 hlen hinv hrec
  · intro h v ei hlen hinv _
    obtain ⟨q1, q2⟩ := RecordCorrectedValue_pres h v ei hlen
    omega
  · intro a b hlen hinv
    obtain ⟨q1, q2⟩ := mergeLoop_pres b.iterFuel a b b.rIterator 0 hlen
    rw [Histogram.Merge]
    omega
  · intro h
    rw [Histogram.Reset]
    simp only []
    rw [map_zero_sum]

/-- C2 witness: concrete instances of each conjunct at small inputs. -/
theorem C2_witness :
    (New 1 5 1).totalCount = (New 1 5 1).counts.sum ∧
    (((New 1 5 1).RecordValues 3 2).getD (New 1 5 1)).totalCount =
      (((New 1 5 1).RecordValues 3 2).getD (New 1 5 1)).counts.sum := by
  refine ⟨C2_totalCount_invariant.1 1 5 1, ?_⟩
  exact C2_totalCount_invariant.2.1 (New 1 5 1) _ 3 2 (by decide)
    (C2_totalCount_invariant.1 1 5 1) (by decide)

/-- C3: RecordValues(v, n) fails exactly when the counts index computed for v
falls outside the slice bounds, returning none (the caller's histogram value
is untouched in the functional model); otherwise it returns a histogram
identical to the input except that the slot at that index grew by n and
totalCount grew by n. -/
theorem C3_recordValues_cases (h : Histogram) (v n : Int)
    (hlen : h.counts.length = h.countsLen.toNat) :
    ((h.countsIndexFor v < 0 ∨ h.countsLen ≤ h.countsIndexFor v) →
      h.RecordValues v n = none) ∧
    (0 ≤ h.countsIndexFor v → h.countsIndexFor v < h.countsLen →
      ∃ h' : Histogram, h.RecordValues v n = some h' ∧
        h'.totalCount = h.totalCount + n ∧
        h'.counts.getD (h.countsIndexFor v).toNat 0 =
          h.counts.getD (h.countsIndexFor v).toNat 0 + n ∧
        (∀ j : Nat, j ≠ (h.countsIndexFor v).toNat →
          h'.counts.getD j 0 = h.counts.getD j 0) ∧
        h'.counts.length = h.counts.length ∧
        h'.lowestTrackableValue = h.lowestTrackableValue ∧
        h'.highestTrackableValue = h.highestTrackableValue ∧
        h'.unitMagnitude = h.unitMagnitude ∧
        h'.significantFigures = h.significantFigures ∧
        h'.subBucketHalfCountMagnitude = h.subBucketHalfCountMagnitude ∧
        h'.subBucketHalfCount = h.subBucketHalfCount ∧
        h'.subBucketMask = h.subBucketMask ∧
        h'.subBucketCount = h.subBucketCount ∧
        h'.bucketCount = h.bucketCount ∧
        h'.countsLen = h.countsLen) := by
  constructor
  · intro hout
    exact RecordValues_none hout
  · intro hin1 hin2
    refine ⟨_, RecordValues_some hin1 hin2, rfl, ?_, ?_, by simp, rfl, rfl, rfl, rfl, rfl, rfl,
      rfl, rfl, rfl, rfl⟩
    · apply getD_set_self
      rw [hlen]
      omega
    · intro j hj
      exact getD_set_ne _ _ _ _ (fun heq => hj heq.symm)

/-- C3 witness: on New 1 5 1 the value 3 maps inside the slice and the value
1000000 maps outside it. -/
theorem C3_witness :
    ((New 1 5 1).countsIndexFor 1000000 < 0 ∨
      (New 1 5 1).countsLen ≤ (New 1 5 1).countsIndexFor 1000000) ∧
    (New 1 5 1).RecordValues 1000000 1 = none ∧
    0 ≤ (New 1 5 1).countsIndexFor 3 ∧ (New 1 5 1).countsIndexFor 3 < (New 1 5 1).countsLen ∧
    ∃ h' : Histogram, (New 1 5 1).RecordValues 3 2 = some h' ∧
      h'.totalCount = (New 1 5 1).totalCount + 2 := by
  have hmain := C3_recordValues_cases (New 1 5 1) 1000000 1 (by decide)
  have hmain2 := C3_recordValues_cases (New 1 5 1) 3 2 (by decide)
  refine ⟨by decide, hmain.1 (by decide), by decide, by decide, ?_⟩
  obtain ⟨h', hrec, htot, _⟩ := hmain2.2 (by decide) (by decide)
  exact ⟨h', hrec, htot⟩

/-- C10: Merge never modifies the argument histogram: the model threads the
from histogram through the whole merge loop and returns it unchanged, so the
returned from component equals the argument in every field (counts,
totalCount and geometry included). -/
theorem C10_merge_frame (a b : Histogram) : (a.Merge b).2.1 = b :=
  mergeLoop_from b.iterFuel a b b.rIterator 0

/-! ## Min -/

theorem iterNext_start_empty {h : Histogram} (hT : h.totalCount ≤ 0) :
    h.iterNext h.iterator = (h.iterator, false) := by
  simp only [Histogram.iterNext]
  rw [if_pos (show h.totalCount ≤ h.iterator.countToIdx from hT)]

theorem minLoop_of_empty {h : Histogram} (hT : h.totalCount ≤ 0) (mn : Int) :
    h.minLoop h.iterFuel h.iterator mn = mn := by
  have hfuel : h.iterFuel = (h.countsLen.toNat + 1) + 1 := rfl
  rw [hfuel]
  simp only [Histogram.minLoop, iterNext_start_empty hT]

theorem lowestEquivalentValue_zero {h : Histogram} (wf : WF h) :
    h.lowestEquivalentValue 0 = 0 := by
  have h0 : ((0 : Nat) : Int) * 2 ^ (0 + h.uNat) ≤ 0 := by simp
  have h1 : (0 : Int) < ((0 : Nat) : Int) + 1 := by simp
  have h2 : (0 : Int) < (((0 : Nat) : Int) + 1) * 2 ^ (0 + h.uNat) := by positivity
  have := @equiv_formulas _ wf 0 0 (Nat.two_pow_pos _) (Or.inl rfl) 0 h0 h2
  rw [this.1]
  simp

/-- C8: Min returns 0 on an empty histogram, and otherwise the lowest
equivalent value of the representative value of the first slot, in ascending
address order, whose count is nonzero. -/
theorem C8_min {h : Histogram} (hr : Reachable h) :
    (h.totalCount = 0 → h.Min = 0) ∧
    (0 < h.totalCount → ∃ j : Nat, j < h.countsLen.toNat ∧ h.counts.getD j 0 ≠ 0 ∧
      (∀ i, i < j → h.counts.getD i 0 = 0) ∧
      h.Min = h.lowestEquivalentValue (valueAt h j)) := by
  have wf := hr.wf
  constructor
  · intro hT
    rw [Histogram.Min, minLoop_of_empty (by omega) 0, lowestEquivalentValue_zero wf]
  · intro hT
    obtain ⟨j, hj0, hj1, hj2, hj3, hj4⟩ :=
      minLoop_walk wf h.iterFuel 0 (Nat.zero_le _) (by rw [Histogram.iterFuel]; omega)
        (fun i hi => absurd hi (Nat.not_lt_zero i)) hT
    refine ⟨j, hj1, hj2, hj3, ?_⟩
    rw [Histogram.Min]
    have hinit : posState h 0 = h.iterator := rfl
    rw [← hinit, hj4]
    -- lowestEq of the highest equivalent value of a slot is the slot value
    obtain ⟨hS, hB, hk⟩ := slotAt_spec h j
    have hpow : (0 : Int) < 2 ^ ((slotAt h j).1 + h.uNat) := by positivity
    have hhe := hEq_valueAt wf j
    have hva := valueAt_eq wf j
    have hw1 : (((slotAt h j).2 : Nat) : Int) * 2 ^ ((slotAt h j).1 + h.uNat) ≤
        h.highestEquivalentValue (valueAt h j) := by
      rw [hhe]; nlinarith
    have hw2 : h.highestEquivalentValue (valueAt h j) <
        ((((slotAt h j).2 : Nat) : Int) + 1) * 2 ^ ((slotAt h j).1 + h.uNat) := by
      rw [hhe]; omega
    have heq1 := (equiv_formulas wf hS hB hw1 hw2).1
    have hw1v : (((slotAt h j).2 : Nat) : Int) * 2 ^ ((slotAt h j).1 + h.uNat) ≤
        valueAt h j := by rw [hva]
    have hw2v : valueAt h j <
        ((((slotAt h j).2 : Nat) : Int) + 1) * 2 ^ ((slotAt h j).1 + h.uNat) := by
      rw [hva]; nlinarith
    have heq2 := (equiv_formulas wf hS hB hw1v hw2v).1
    rw [heq1, ← heq2]

/-- C8 witness: the empty histogram has Min 0. -/
theorem C8_witness : (New 1 5 1).Min = 0 :=
  (C8_min (Reachable.new 1 5 1 (by decide))).1 (by decide)

/-! ## Merge conservation -/

theorem getD_nonneg_of_forall {l : List Int} (hpos : ∀ c ∈ l, 0 ≤ c) (k : Nat) :
    0 ≤ l.getD k 0 := by
  rcases lt_or_ge k l.length with hk | hk
  · rw [List.getD_eq_getElem l 0 hk]
    exact hpos _ (List.getElem_mem hk)
  · rw [List.getD_eq_default l 0 hk]

theorem RecordValues_total {h h' : Histogram} {v n : Int}
    (hrec : h.RecordValues v n = some h') : h'.totalCount = h.totalCount + n := by
  by_cases hout : h.countsIndexFor v < 0 ∨ h.countsLen ≤ h.countsIndexFor v
  · rw [RecordValues_none hout] at hrec
    cases hrec
  · push_neg at hout
    rw [RecordValues_some hout.1 hout.2] at hrec
    have hh' := Option.some.inj hrec
    subst hh'
    rfl

theorem RecordValues_counts_mono {h h' : Histogram} {v n : Int} (hn : 0 ≤ n)
    (hrec : h.RecordValues v n = some h') (i : Nat) :
    h.counts.getD i 0 ≤ h'.counts.getD i 0 := by
  by_cases hout : h.countsIndexFor v < 0 ∨ h.countsLen ≤ h.countsIndexFor v
  · rw [RecordValues_none hout] at hrec
    cases hrec
  · push_neg at hout
    rw [RecordValues_some hout.1 hout.2] at hrec
    have hh' := Option.some.inj hrec
    subst hh'
    show h.counts.getD i 0 ≤ (h.counts.set (h.countsIndexFor v).toNat
      (h.counts.getD (h.countsIndexFor v).toNat 0 + n)).getD i 0
    by_cases hi : i = (h.countsIndexFor v).toNat
    · rw [hi]
      rcases lt_or_ge (h.countsIndexFor v).toNat h.counts.length with hil | hil
      · rw [getD_set_self _ _ _ hil]
        omega
      · rw [List.getD_eq_default h.counts 0 hil,
          List.getD_eq_default _ 0 (by simpa using hil)]
    · rw [getD_set_ne _ _ _ _ (fun he => hi he.symm)]

theorem rNext_succ_red (b : Histogram) (fuel : Nat) (r : RIterator) (i : HIterator)
    (hstep : b.iterNext r.it = (i, true)) :
    b.rNext (fuel + 1) r =
      (if i.countAtIdx ≠ 0 then ({ it := i, countAddedThisStep := i.countAtIdx }, true)
       else b.rNext fuel { r with it := i }) := by
  have hunfold : b.rNext (fuel + 1) r =
      match b.iterNext r.it with
      | (i, false) => ({ r with it := i }, false)
      | (i, true) =>
        if i.countAtIdx ≠ 0 then ({ it := i, countAddedThisStep := i.countAtIdx }, true)
        else b.rNext fuel { r with it := i } := rfl
  rw [hunfold, hstep]

theorem rNext_stop_red (b : Histogram) (fuel : Nat) (r : RIterator) (i : HIterator)
    (hstep : b.iterNext r.it = (i, false)) :
    b.rNext (fuel + 1) r = ({ r with it := i }, false) := by
  have hunfold : b.rNext (fuel + 1) r =
      match b.iterNext r.it with
      | (i, false) => ({ r with it := i }, false)
      | (i, true) =>
        if i.countAtIdx ≠ 0 then ({ it := i, countAddedThisStep := i.countAtIdx }, true)
        else b.rNext fuel { r with it := i } := rfl
  rw [hunfold, hstep]

theorem rNext_walk {b : Histogram} (wf : WF b) :
    ∀ (fuel k : Nat) (r : RIterator), r.it = posState b k →
      k ≤ b.countsLen.toNat → b.countsLen.toNat - k < fuel →
      (sumTo b.counts k < b.totalCount →
        ∃ j : Nat, k ≤ j ∧ j < b.countsLen.toNat ∧ b.counts.getD j 0 ≠ 0 ∧
          sumTo b.counts (j + 1) = sumTo b.counts k + b.counts.getD j 0 ∧
          b.rNext fuel r =
            ({ it := posState b (j + 1), countAddedThisStep := b.counts.getD j 0 }, true)) ∧
      (b.totalCount ≤ sumTo b.counts k →
        ∃ r'' : RIterator, b.rNext fuel r = (r'', false)) := by
  intro fuel
  induction fuel with
  | zero =>
    intro k r hr hklen hfuel
    exact absurd hfuel (by omega)
  | succ fuel ih =>
    intro k r hr hklen hfuel
    constructor
    · intro hlt
      have hkl : k < b.countsLen.toNat := by
        rcases eq_or_lt_of_le hklen with he | hlt2
        · exfalso
          rw [he, sumTo_full wf] at hlt
          exact absurd hlt (lt_irrefl _)
        · exact hlt2
      have hstep : b.iterNext r.it = (posState b (k + 1), true) := by
        rw [hr]
        exact iterNext_step wf hkl hlt
      have hcnt : (posState b (k + 1)).countAtIdx = b.counts.getD k 0 := rfl
      by_cases hck : b.counts.getD k 0 = 0
      · have hlt' : sumTo b.counts (k + 1) < b.totalCount := by
          rw [sumTo_succ, hck]
          omega
        obtain ⟨j, hj1, hj2, hj3, hj4, hj5⟩ :=
          (ih (k + 1) { r with it := posState b (k + 1) } rfl (by omega) (by omega)).1 hlt'
        refine ⟨j, by omega, hj2, hj3, ?_, ?_⟩
        · rw [hj4, sumTo_succ, hck]
          ring
        · rw [rNext_succ_red b fuel r (posState b (k + 1)) hstep, hcnt,
            if_neg (fun hco => hco hck)]
          exact hj5
      · refine ⟨k, le_refl k, hkl, hck, sumTo_succ b.counts k, ?_⟩
        rw [rNext_succ_red b fuel r (posState b (k + 1)) hstep, hcnt, if_pos hck]
    · intro hge
      have hstop : b.iterNext r.it = (posState b k, false) := by
        rw [hr]
        exact iterNext_stop k hge
      exact ⟨{ r with it := posState b k }, rNext_stop_red b fuel r (posState b k) hstop⟩

theorem mergeLoop_red_stop (fuel : Nat) (a f : Histogram) (r r' : RIterator) (dropped : Int)
    (hr : f.rNext f.iterFuel r = (r', false)) :
    mergeLoop (fuel + 1) a f r dropped = (a, f, dropped) := by
  have hunfold : mergeLoop (fuel + 1) a f r dropped =
      match f.rNext f.iterFuel r with
      | (_, false) => (a, f, dropped)
      | (r', true) =>
        match a.RecordValues r'.it.valueFromIdx r'.it.countAtIdx with
        | none => mergeLoop fuel a f r' (dropped + r'.it.countAtIdx)
        | some a' => mergeLoop fuel a' f r' dropped := rfl
  rw [hunfold, hr]

theorem mergeLoop_red_drop (fuel : Nat) (a f : Histogram) (r r' : RIterator) (dropped : Int)
    (v n : Int) (hv : r'.it.valueFromIdx = v) (hn : r'.it.countAtIdx = n)
    (hr : f.rNext f.iterFuel r = (r', true))
    (hrec : a.RecordValues v n = none) :
    mergeLoop (fuel + 1) a f r dropped = mergeLoop fuel a f r' (dropped + n) := by
  subst hv hn
  have hunfold : mergeLoop (fuel + 1) a f r dropped =
      match f.rNext f.iterFuel r with
      | (_, false) => (a, f, dropped)
      | (r', true) =>
        match a.RecordValues r'.it.valueFromIdx r'.it.countAtIdx with
        | none => mergeLoop fuel a f r' (dropped + r'.it.countAtIdx)
        | some a' => mergeLoop fuel a' f r' dropped := rfl
  rw [hunfold, hr]
  show (match a.RecordValues r'.it.valueFromIdx r'.it.countAtIdx with
    | none => mergeLoop fuel a f r' (dropped + r'.it.countAtIdx)
    | some a' => mergeLoop fuel a' f r' dropped) =
      mergeLoop fuel a f r' (dropped + r'.it.countAtIdx)
  rw [hrec]

theorem mergeLoop_red_rec (fuel : Nat) (a a' f : Histogram) (r r' : RIterator) (dropped : Int)
    (v n : Int) (hv : r'.it.valueFromIdx = v) (hn : r'.it.countAtIdx = n)
    (hr : f.rNext f.iterFuel r = (r', true))
    (hrec : a.RecordValues v n = some a') :
    mergeLoop (fuel + 1) a f r dropped = mergeLoop fuel a' f r' dropped := by
  subst hv hn
  have hunfold : mergeLoop (fuel + 1) a f r dropped =
      match f.rNext f.iterFuel r with
      | (_, false) => (a, f, dropped)
      | (r', true) =>
        match a.RecordValues r'.it.valueFromIdx r'.it.countAtIdx with
        | none => mergeLoop fuel a f r' (dropped + r'.it.countAtIdx)
        | some a'' => mergeLoop fuel a'' f r' dropped := rfl
  rw [hunfold, hr]
  show (match a.RecordValues r'.it.valueFromIdx r'.it.countAtIdx with
    | none => mergeLoop fuel a f r' (dropped + r'.it.countAtIdx)
    | some a'' => mergeLoop fuel a'' f r' dropped) =
      mergeLoop fuel a' f r' dropped
  rw [hrec]

theorem mergeLoop_conserve {b : Histogram} (wf : WF b) :
    ∀ (fuel : Nat) (a : Histogram) (k : Nat) (r : RIterator) (dropped : Int),
      r.it = posState b k → k ≤ b.countsLen.toNat →
      b.countsLen.toNat - k < fuel →
      (mergeLoop fuel a b r dropped).1.totalCount + (mergeLoop fuel a b r dropped).2.2 =
        a.totalCount + dropped + (b.totalCount - sumTo b.counts k) ∧
      ∀ i : Nat, a.counts.getD i 0 ≤ (mergeLoop fuel a b r dropped).1.counts.getD i 0 := by
  intro fuel
  induction fuel with
  | zero =>
    intro a k r dropped hrk hklen hfuel
    exact absurd hfuel (by omega)
  | succ fuel ih =>
    intro a k r dropped hrk hklen hfuel
    have hfit : b.countsLen.toNat - k < b.iterFuel := by
      show b.countsLen.toNat - k < b.countsLen.toNat + 2
      omega
    rcases le_or_lt b.totalCount (sumTo b.counts k) with hge | hlt
    · obtain ⟨r'', hr''⟩ := (rNext_walk wf b.iterFuel k r hrk hklen hfit).2 hge
      rw [mergeLoop_red_stop fuel a b r r'' dropped hr'']
      have hle : sumTo b.counts k ≤ b.totalCount := by
        have hmono := sumTo_mono b.counts wf.hnonneg hklen
        rw [sumTo_full wf] at hmono
        exact hmono
      constructor
      · show a.totalCount + dropped = a.totalCount + dropped + (b.totalCount - sumTo b.counts k)
        omega
      · intro i
        show a.counts.getD i 0 ≤ a.counts.getD i 0
        exact le_refl _
    · obtain ⟨j, hj1, hj2, hj3, hj4, hj5⟩ :=
        (rNext_walk wf b.iterFuel k r hrk hklen hfit).1 hlt
      cases hrec : a.RecordValues (valueAt b j) (b.counts.getD j 0) with
      | none =>
        rw [mergeLoop_red_drop fuel a b r
          { it := posState b (j + 1), countAddedThisStep := b.counts.getD j 0 } dropped
          (valueAt b j) (b.counts.getD j 0) rfl rfl hj5 hrec]
        obtain ⟨ihc, ihm⟩ := ih a (j + 1)
          { it := posState b (j + 1), countAddedThisStep := b.counts.getD j 0 }
          (dropped + b.counts.getD j 0) rfl (by omega) (by omega)
        constructor
        · omega
        · intro i
          exact ihm i
      | some a' =>
        rw [mergeLoop_red_rec fuel a a' b r
          { it := posState b (j + 1), countAddedThisStep := b.counts.getD j 0 } dropped
          (valueAt b j) (b.counts.getD j 0) rfl rfl hj5 hrec]
        obtain ⟨ihc, ihm⟩ := ih a' (j + 1)
          { it := posState b (j + 1), countAddedThisStep := b.counts.getD j 0 }
          dropped rfl (by omega) (by omega)
        have htot := RecordValues_total hrec
        have hg : 0 ≤ b.counts.getD j 0 := getD_nonneg_of_forall wf.hnonneg j
        constructor
        · omega
        · intro i
          exact le_trans (RecordValues_counts_mono hg hrec i) (ihm i)

/-- C4: for every receiver a and every reachable from-histogram b, the
receiver's totalCount after a.Merge b equals its totalCount before the call
plus b's totalCount minus the dropped count Merge returns; and every slot of
the receiver's counts array is at least its prior value, so a's prior
recordings are added to, never replaced. -/
theorem C4_merge_conservation {a b : Histogram} (hrb : Reachable b) :
    (a.Merge b).1.totalCount = a.totalCount + b.totalCount - (a.Merge b).2.2 ∧
    ∀ i : Nat, a.counts.getD i 0 ≤ (a.Merge b).1.counts.getD i 0 := by
  have wf := hrb.wf
  have hfe : b.countsLen.toNat - 0 < b.iterFuel := by
    show b.countsLen.toNat - 0 < b.countsLen.toNat + 2
    omega
  obtain ⟨hc, hm⟩ := mergeLoop_conserve wf b.iterFuel a 0 b.rIterator 0 rfl (Nat.zero_le _) hfe
  constructor
  · show (mergeLoop b.iterFuel a b b.rIterator 0).1.totalCount =
      a.totalCount + b.totalCount - (mergeLoop b.iterFuel a b b.rIterator 0).2.2
    have hs0 : sumTo b.counts 0 = 0 := rfl
    omega
  · intro i
    show a.counts.getD i 0 ≤ (mergeLoop b.iterFuel a b b.rIterator 0).1.counts.getD i 0
    exact hm i

/-- C4 witness: merging New 1 5 1 into New 1 1000 2. -/
theorem C4_witness :
    ((New 1 1000 2).Merge (New 1 5 1)).1.totalCount =
      (New 1 1000 2).totalCount + (New 1 5 1).totalCount -
        ((New 1 1000 2).Merge (New 1 5 1)).2.2 :=
  (@C4_merge_conservation (New 1 1000 2) (New 1 5 1) (Reachable.new 1 5 1 (by decide))).1

/-! ## RecordCorrectedValue backfill -/

theorem syntheticValues_fuel {ei : Int} (hei : 0 < ei) :
    ∀ (fuel fuel' : Nat) (missing : Int), missing.toNat < fuel → missing.toNat < fuel' →
      syntheticValues fuel missing ei = syntheticValues fuel' missing ei := by
  intro fuel
  induction fuel with
  | zero =>
    intro fuel' missing h1 h2
    exact absurd h1 (by omega)
  | succ fuel ih =>
    intro fuel' missing h1 h2
    cases fuel' with
    | zero => exact absurd h2 (by omega)
    | succ fuel' =>
      simp only [syntheticValues]
      by_cases hc : ei ≤ missing
      · rw [if_pos hc, if_pos hc]
        congr 1
        exact ih fuel' (missing - ei) (by omega) (by omega)
      · rw [if_neg hc, if_neg hc]

theorem recordCorrectedLoop_eq_seq :
    ∀ (fuel : Nat) (hg : Histogram) (missing ei : Int),
      hg.recordCorrectedLoop fuel missing ei = recordSeq hg (syntheticValues fuel missing ei) := by
  intro fuel
  induction fuel with
  | zero =>
    intro hg missing ei
    rfl
  | succ fuel ih =>
    intro hg missing ei
    have hL : hg.recordCorrectedLoop (fuel + 1) missing ei =
        if ei ≤ missing then
          match hg.RecordValue missing with
          | none => (hg, false)
          | some h1 => h1.recordCorrectedLoop fuel (missing - ei) ei
        else (hg, true) := rfl
    have hR : syntheticValues (fuel + 1) missing ei =
        if ei ≤ missing then missing :: syntheticValues fuel (missing - ei) ei else [] := rfl
    rw [hL, hR]
    by_cases hc : ei ≤ missing
    · rw [if_pos hc, if_pos hc]
      have hS : recordSeq hg (missing :: syntheticValues fuel (missing - ei) ei) =
          match hg.RecordValue missing with
          | none => (hg, false)
          | some h1 => recordSeq h1 (syntheticValues fuel (missing - ei) ei) := rfl
      rw [hS]
      cases hrec : hg.RecordValue missing with
      | none => rfl
      | some h1 =>
        show h1.recordCorrectedLoop fuel (missing - ei) ei =
          recordSeq h1 (syntheticValues fuel (missing - ei) ei)
        exact ih h1 (missing - ei) ei
    · rw [if_neg hc, if_neg hc]
      rfl

/-- C7: RecordCorrectedValue first records v, stopping with the failure and
the unchanged histogram if that fails; when the first recording succeeds it
returns immediately unless 0 < expectedInterval < v, and exactly in that case
it replays the synthetic descending sequence v - ei, v - 2*ei, ... down to but
not below ei, one occurrence each in order, stopping at and propagating the
first failure with the earlier recordings of the call kept (recordSeq); the
fuel v.toNat + 1 given to the synthetic sequence saturates it, so the sequence
is the full descending chain. -/
theorem C7_record_corrected (h : Histogram) (v ei : Int) :
    (h.RecordValue v = none → h.RecordCorrectedValue v ei = (h, false)) ∧
    ∀ h1 : Histogram, h.RecordValue v = some h1 →
      (¬ (0 < ei ∧ ei < v) → h.RecordCorrectedValue v ei = (h1, true)) ∧
      (0 < ei ∧ ei < v →
        h.RecordCorrectedValue v ei =
          recordSeq h1 (syntheticValues (v.toNat + 1) (v - ei) ei) ∧
        ∀ fuel : Nat, (v - ei).toNat < fuel →
          syntheticValues fuel (v - ei) ei = syntheticValues (v.toNat + 1) (v - ei) ei) := by
  constructor
  · intro hrec
    simp only [Histogram.RecordCorrectedValue, hrec]
  · intro h1 hrec
    constructor
    · intro hno
      simp only [Histogram.RecordCorrectedValue, hrec]
      rw [if_pos (by omega)]
    · intro hyes
      obtain ⟨h0, hv⟩ := hyes
      constructor
      · simp only [Histogram.RecordCorrectedValue, hrec]
        rw [if_neg (by omega)]
        exact recordCorrectedLoop_eq_seq (v.toNat + 1) h1 (v - ei) ei
      · intro fuel hf
        exact syntheticValues_fuel h0 fuel (v.toNat + 1) (v - ei) hf (by omega)

/-- C7 witness: RecordCorrectedValue 7 2 on New 1 100 1 backfills 5 and 3. -/
theorem C7_witness :
    ∃ h1 : Histogram, (New 1 100 1).RecordValue 7 = some h1 ∧
      (New 1 100 1).RecordCorrectedValue 7 2 =
        recordSeq h1 (syntheticValues ((7 : Int).toNat + 1) (7 - 2) 2) := by
  cases hrec : (New 1 100 1).RecordValue 7 with
  | none => exact absurd hrec (by decide)
  | some h1 =>
    exact ⟨h1, rfl,
      (((C7_record_corrected (New 1 100 1) 7 2).2 h1 hrec).2 ⟨by decide, by decide⟩).1⟩

end Hdr
